import Mathlib

/-!
Verification development for the bpmn-beautifier repository.

The repository has two source files:
* `pst_umwandler.py` — loads a flow graph, detects split/join pairs
  (`bfs_dist`, `find_join`), and structures the graph into a process
  structure tree (`build_pst_main`, `build_path_until`).
* `clean_bpmn_generator.py` — parses the parenthesized tree notation
  (`parse_pst_text`) and renders a tree back into a flow graph with layout
  (`BPMNBuilder.build`).

Below, each Python function is embedded as an executable Lean definition.
Python dictionaries keyed by element id become association lists (insertion
order preserved); the two unbounded loops of the structuring engine
(the backbone queue loop and the branch builder's while loop / recursion)
are given an explicit fuel parameter and return `none` on fuel exhaustion,
so that non-termination of the source algorithm is expressible as
"`none` for every fuel".
-/

namespace BPMN

/-- The PST node class (`Node` in both Python files): an open string tag,
an optional value, and a list of children. -/
inductive PNode where
  | mk (ntype : String) (value : Option String) (children : List PNode)

namespace PNode

mutual

def beq : PNode → PNode → Bool
  | .mk n1 v1 c1, .mk n2 v2 c2 => n1 == n2 && v1 == v2 && beqList c1 c2

def beqList : List PNode → List PNode → Bool
  | [], [] => true
  | a :: as, b :: bs => beq a b && beqList as bs
  | _, _ => false

end

mutual

theorem beq_iff : ∀ a b : PNode, beq a b = true ↔ a = b
  | .mk n1 v1 c1, .mk n2 v2 c2 => by
    rw [beq]
    simp only [Bool.and_eq_true, beq_iff_eq, beqList_iff c1 c2, mk.injEq]
    tauto

theorem beqList_iff : ∀ as bs : List PNode, beqList as bs = true ↔ as = bs
  | [], [] => by simp [beqList]
  | [], _ :: _ => by simp [beqList]
  | _ :: _, [] => by simp [beqList]
  | a :: as, b :: bs => by
    rw [beqList]
    simp only [Bool.and_eq_true, beq_iff a b, beqList_iff as bs, List.cons.injEq]

end

instance : DecidableEq PNode :=
  fun a b => decidable_of_iff (beq a b = true) (beq_iff a b)

def ntype : PNode → String
  | .mk n _ _ => n

def value : PNode → Option String
  | .mk _ v _ => v

def children : PNode → List PNode
  | .mk _ _ c => c

end PNode

/-- The loaded flow graph, as `parse_bpmn` assembles it from the document:
tasks, start events, end events, exclusive and parallel gateways (each an
id paired with the optional `name` attribute), and the sequence flows. -/
structure Graph where
  tasks : List (String × Option String)
  startEvents : List (String × Option String)
  endEvents : List (String × Option String)
  xorGws : List (String × Option String)
  andGws : List (String × Option String)
  flows : List (String × String)
deriving DecidableEq

namespace Graph

/-- `events = {**start_events, **end_events}` (ids assumed unique). -/
def events (g : Graph) : List (String × Option String) :=
  g.startEvents ++ g.endEvents

/-- `gateways = {**xor_gws, **and_gws}`. -/
def gateways (g : Graph) : List (String × Option String) :=
  g.xorGws ++ g.andGws

/-- Successor adjacency: `succ[u].append(v)` for each flow `(u, v)`,
in flow order. -/
def succ (g : Graph) (n : String) : List String :=
  (g.flows.filter (fun p => p.1 == n)).map Prod.snd

/-- Predecessor adjacency, in flow order. -/
def pred (g : Graph) (n : String) : List String :=
  (g.flows.filter (fun p => p.2 == n)).map Prod.fst

def outdeg (g : Graph) (n : String) : Nat := (g.succ n).length

def indeg (g : Graph) (n : String) : Nat := (g.pred n).length

def is_xor (g : Graph) (n : String) : Bool := (g.xorGws.lookup n).isSome

def is_and (g : Graph) (n : String) : Bool := (g.andGws.lookup n).isSome

def isTask (g : Graph) (n : String) : Bool := (g.tasks.lookup n).isSome

def isEvent (g : Graph) (n : String) : Bool := (g.events.lookup n).isSome

def isGateway (g : Graph) (n : String) : Bool := (g.gateways.lookup n).isSome

def taskIds (g : Graph) : List String := g.tasks.map Prod.fst

def startIds (g : Graph) : List String := g.startEvents.map Prod.fst

/-- `set(tasks)|set(events)|set(gateways)`, as an ordered list. -/
def nodeIds (g : Graph) : List String :=
  g.tasks.map Prod.fst ++ g.events.map Prod.fst ++ g.gateways.map Prod.fst

end Graph

/-- `label(elem)`: `id|name.strip()` when a name attribute is present and
non-empty (Python truthiness), else the bare id. -/
def labelOf (id : String) (nm : Option String) : String :=
  match nm with
  | some s => if s == "" then id else id ++ "|" ++ s.trim
  | none => id

/-- `label_by_id(nid)`: resolve the id through tasks, then events, then
gateways, falling back to the raw id. -/
def label_by_id (g : Graph) (n : String) : String :=
  match g.tasks.lookup n with
  | some nm => labelOf n nm
  | none =>
    match g.events.lookup n with
    | some nm => labelOf n nm
    | none =>
      match g.gateways.lookup n with
      | some nm => labelOf n nm
      | none => n

/-- One step of the BFS neighbour loop: for each successor `v` of the
dequeued node not yet visited, record it, set `dist[v] = dist[u] + 1`,
and enqueue it. -/
def bfsVisit (du : Nat) (state : List String × List (String × Nat) × List String)
    (v : String) : List String × List (String × Nat) × List String :=
  let (vis, dist, q) := state
  if vis.contains v then (vis, dist, q)
  else (vis ++ [v], dist ++ [(v, du + 1)], q ++ [v])

/-- The BFS loop of `bfs_dist`, with explicit fuel (the source loop always
terminates because each node is enqueued at most once; any fuel larger than
the total number of enqueues computes the same result). -/
def bfsAux (g : Graph) (stop : Option String) :
    Nat → List String → List String → List (String × Nat) →
    List String × List (String × Nat)
  | 0, _, vis, dist => (vis, dist)
  | _ + 1, [], vis, dist => (vis, dist)
  | fuel + 1, u :: q, vis, dist =>
    if stop == some u then (vis, dist)
    else
      let du := (dist.lookup u).getD 0
      let (vis, dist, q) := ((g.succ u).foldl (bfsVisit du) (vis, dist, q))
      bfsAux g stop fuel q vis dist

/-- `bfs_dist(start, stop=None)`: visited set (in visit order) and
shortest-distance map from `start`. Fuel `flows.length + 2` dominates the
number of possible dequeues. -/
def bfs_dist (g : Graph) (start : String) (stop : Option String) :
    List String × List (String × Nat) :=
  bfsAux g stop (g.flows.length + 2) [start] [start] [(start, 0)]

/-- The per-branch reachability data `find_join` gathers: one
`(visited, dist)` pair per outgoing edge of the split. -/
def branchData (g : Graph) (split : String) :
    List (List String × List (String × Nat)) :=
  (g.succ split).map (fun o => bfs_dist g o none)

/-- `is_candidate(n)` of `find_join`: a gateway of the same kind as the
split with in-degree above one. -/
def isJoinCandidate (g : Graph) (kind : String) (n : String) : Bool :=
  (g.gateways.lookup n).isSome &&
    ((kind == "XOR" && g.is_xor n) || (kind == "AND" && g.is_and n)) &&
    decide (g.indeg n > 1)

/-- The candidate list of `find_join`: the intersection of all per-branch
visited sets, filtered by `is_candidate`, in first-branch visit order. -/
def joinCands (g : Graph) (split : String) (kind : String) : List String :=
  match branchData g split with
  | [] => []
  | b :: bs =>
    (b.1.filter (fun n => bs.all (fun b2 => b2.1.contains n))).filter
      (isJoinCandidate g kind)

/-- `score(n)`: maximum over branch distance maps, `10 ** 9` default for an
absent key. -/
def joinScore (g : Graph) (split : String) (n : String) : Nat :=
  ((branchData g split).map (fun b => (b.2.lookup n).getD 1000000000)).foldl
    max 0

/-- Stable insertion sort by a Nat key; extensionally equal (on keys and on
the relative order of equal keys) to Python's stable `list.sort(key=...)`. -/
def sortInsert (key : String → Nat) (x : String) : List String → List String
  | [] => [x]
  | y :: ys => if key x ≤ key y then x :: y :: ys else y :: sortInsert key x ys

def sortByKey (key : String → Nat) : List String → List String
  | [] => []
  | x :: xs => sortInsert key x (sortByKey key xs)

/-- `find_join(split_id, kind)`: `None` for at most one successor; else
sort the candidates by score (stably) and return the first, `None` if the
candidate list is empty (`cands[0]` after `cands.sort(key=score)`). -/
def find_join (g : Graph) (split : String) (kind : String) : Option String :=
  if (g.succ split).length ≤ 1 then none
  else (sortByKey (joinScore g split) (joinCands g split kind)).head?

/-- `edge_hits_active_split(u, stack)`: the first successor of `u` lying on
the active split stack, if any. -/
def edge_hits_active_split (g : Graph) (u : String) (stack : List String) :
    Option String :=
  (g.succ u).find? (fun v => stack.contains v)

/-- The collapse applied to accumulated children everywhere in the engine:
empty to `NULL`, a single child to itself, otherwise a `SEQ`. -/
def normalizeSeq : List PNode → PNode
  | [] => .mk "NULL" none []
  | [t] => t
  | ts => .mk "SEQ" none ts

def nullNode : PNode := .mk "NULL" none []

/-- The gateway kind string chosen for a split:
`"XOR" if is_xor(current) else ("AND" if is_and(current) else "XOR")`. -/
def gwKind (g : Graph) (c : String) : String :=
  if g.is_xor c then "XOR" else if g.is_and c then "AND" else "XOR"

/-- The `while` loop of `build_path_until(node_id, stop_id, stack)`.
`start` is the original `node_id` argument, `cur` the loop variable
`current` (`none` encodes Python's `None`), `seen` the call-local visited
set, `acc` the accumulated `seq_children`. One unit of fuel is spent per
loop iteration and per nested branch recursion; `none` means the fuel ran
out (the source has no such bound and can in fact recurse forever). -/
def bpuGo (g : Graph) :
    Nat → String → Option String → List String → Option String →
    List String → List PNode → Option PNode
  | 0, _, _, _, _, _, _ => none
  | fuel + 1, start, stop, stack, cur, seen, acc =>
    match cur with
    | none => some (normalizeSeq acc)
    | some c =>
      if stop == some c then some (normalizeSeq acc)
      else if seen.contains c then some (normalizeSeq acc)
      else
        match edge_hits_active_split g c stack with
        | some hit =>
          some (.mk "LOOP" none
            [normalizeSeq acc,
             if start == hit then nullNode
             else .mk "SEQ" none
               [.mk "TASK" (some ("Body_of_" ++ label_by_id g hit)) []]])
        | none =>
          match g.tasks.lookup c with
          | some nm =>
            bpuGo g fuel start stop stack
              (match g.succ c with
               | [n] => some n
               | _ => none)
              (c :: seen) (acc ++ [.mk "TASK" (some (labelOf c nm)) []])
          | none =>
            match g.events.lookup c with
            | some nm =>
              bpuGo g fuel start stop stack
                (match g.succ c with
                 | [n] => some n
                 | _ => none)
                (c :: seen) (acc ++ [.mk "EVENT" (some (labelOf c nm)) []])
            | none =>
              match g.gateways.lookup c with
              | some nm =>
                if g.outdeg c > 1 then
                  if find_join g c (gwKind g c) == some c then
                    some (normalizeSeq acc)
                  else
                    match (g.succ c).mapM (fun o =>
                        if o == c then some nullNode
                        else bpuGo g fuel o (find_join g c (gwKind g c))
                          (stack ++ [c]) (some o) [] []) with
                    | none => none
                    | some kids =>
                      bpuGo g fuel start stop stack
                        (match find_join g c (gwKind g c) with
                         | some j => (g.succ j).head?
                         | none => none)
                        (c :: seen)
                        (acc ++ [.mk (gwKind g c) (some (labelOf c nm)) kids])
                else
                  bpuGo g fuel start stop stack
                    (match g.succ c with
                     | [n] => some n
                     | _ => none)
                    (c :: seen) acc
              | none => some (normalizeSeq acc)

/-- `build_path_until(node_id, stop_id, active_split_stack)`. -/
def build_path_until (g : Graph) (fuel : Nat) (node : String)
    (stop : Option String) (stack : List String) : Option PNode :=
  bpuGo g fuel node stop stack (some node) [] []

/-- The backbone queue loop of `build_pst_main`. In the source the active
split stack is empty between backbone iterations, so every branch call
receives the copy `[current]`. -/
def bpmGo (g : Graph) :
    Nat → List String → List String → List PNode → Option PNode
  | 0, _, _, _ => none
  | _ + 1, [], _, acc => some (normalizeSeq acc)
  | fuel + 1, c :: q, seen, acc =>
    if seen.contains c then
      some (normalizeSeq (acc ++ [.mk "LOOPBACK" (some (label_by_id g c)) []]))
    else
      match g.tasks.lookup c with
      | some nm =>
        match g.succ c with
        | [] => bpmGo g fuel q (c :: seen)
            (acc ++ [.mk "TASK" (some (labelOf c nm)) []])
        | [n] => bpmGo g fuel (q ++ [n]) (c :: seen)
            (acc ++ [.mk "TASK" (some (labelOf c nm)) []])
        | nxts =>
          match nxts.mapM (fun o =>
              match find_join g c "XOR" with
              | some j =>
                if o == j then some nullNode
                else bpuGo g fuel o (find_join g c "XOR") [c] (some o) [] []
              | none => bpuGo g fuel o none [c] (some o) [] []) with
          | none => none
          | some kids =>
            bpmGo g fuel
              (match find_join g c "XOR" with
               | some j => q ++ ((g.succ j).head?.toList)
               | none => q)
              (c :: seen)
              ((acc ++ [.mk "TASK" (some (labelOf c nm)) []]) ++
                [.mk "XOR" (some (labelOf c nm)) kids])
      | none =>
        match g.events.lookup c with
        | some nm =>
          bpmGo g fuel
            (match (g.succ c).head? with
             | some n => q ++ [n]
             | none => q)
            (c :: seen) (acc ++ [.mk "EVENT" (some (labelOf c nm)) []])
        | none =>
          match g.gateways.lookup c with
          | some nm =>
            if g.outdeg c > 1 then
              match find_join g c (gwKind g c) with
              | none =>
                match (g.succ c).mapM (fun o =>
                    bpuGo g fuel o none [c] (some o) [] []) with
                | none => none
                | some kids =>
                  some (normalizeSeq
                    (acc ++ [.mk (gwKind g c) (some (labelOf c nm)) kids]))
              | some j =>
                match (g.succ c).mapM (fun o =>
                    if o == j then some nullNode
                    else bpuGo g fuel o (some j) [c] (some o) [] []) with
                | none => none
                | some kids =>
                  bpmGo g fuel (q ++ ((g.succ j).head?.toList)) (c :: seen)
                    (acc ++ [.mk (gwKind g c) (some (labelOf c nm)) kids])
            else
              match (g.succ c).head? with
              | some n => bpmGo g fuel (q ++ [n]) (c :: seen) acc
              | none => bpmGo g fuel q (c :: seen) acc
          | none => some (normalizeSeq acc)

/-- `build_pst_main(start_node)`. -/
def build_pst_main (g : Graph) (fuel : Nat) (start : String) : Option PNode :=
  bpmGo g fuel [start] [] []

/-- Start-node selection of `parse_bpmn`: a start event with in-degree 0,
else the first start event, else a node with in-degree 0, else the first
task / event / gateway; `none` only when the graph has no nodes at all
(where the source would raise `StopIteration`). -/
def chooseStart (g : Graph) : Option String :=
  if g.startEvents.isEmpty then
    match (g.nodeIds).filter (fun n => g.indeg n == 0) with
    | c :: _ => some c
    | [] =>
      match g.tasks with
      | t :: _ => some t.1
      | [] =>
        match g.events with
        | e :: _ => some e.1
        | [] =>
          match g.gateways with
          | gw :: _ => some gw.1
          | [] => none
  else
    match (g.startIds).find? (fun sid => g.indeg sid == 0) with
    | some se => some se
    | none => g.startIds.head?

/-- `parse_bpmn` after graph loading: choose the start node and run
`build_pst_main` on it. -/
def structureGraph (g : Graph) (fuel : Nat) : Option PNode :=
  (chooseStart g).bind (fun s => build_pst_main g fuel s)

/-- The round-trip scenario graph:
`Start -> A -> GW -> {B, C} -> J -> D -> End`, `GW`/`J` exclusive. -/
def gRound : Graph :=
  { tasks := [("A", none), ("B", none), ("C", none), ("D", none)]
    startEvents := [("Start", none)]
    endEvents := [("End", none)]
    xorGws := [("GW", none), ("J", none)]
    andGws := []
    flows := [("Start", "A"), ("A", "GW"), ("GW", "B"), ("GW", "C"),
              ("B", "J"), ("C", "J"), ("J", "D"), ("D", "End")] }

/-- The loop scenario graph: `Start -> A -> GW -> B -> A`. -/
def gLoop : Graph :=
  { tasks := [("A", none), ("B", none)]
    startEvents := [("Start", none)]
    endEvents := []
    xorGws := [("GW", none)]
    andGws := []
    flows := [("Start", "A"), ("A", "GW"), ("GW", "B"), ("B", "A")] }

/-- A split with a back-edge branch: `Start -> GW -> {B, C}`, `B -> GW`,
`C -> End`; the `B` branch triggers the synthetic loop body. -/
def gBack : Graph :=
  { tasks := [("B", none), ("C", none)]
    startEvents := [("Start", none)]
    endEvents := [("End", none)]
    xorGws := [("GW", none)]
    andGws := []
    flows := [("Start", "GW"), ("GW", "B"), ("GW", "C"), ("B", "GW"),
              ("C", "End")] }

/-- A graph on which the branch builder recurses without bound: the join
`j` of the inner split `S2` leads back to the outer split `S1`, which is
then re-expanded with itself already on the active-split stack. -/
def gDiv : Graph :=
  { tasks := [("a", none), ("e", none), ("b1", none), ("b2", none)]
    startEvents := [("Start", none)]
    endEvents := [("End", none)]
    xorGws := [("S1", none), ("S2", none), ("j", none)]
    andGws := []
    flows := [("Start", "S1"), ("S1", "a"), ("S1", "e"), ("a", "S2"),
              ("S2", "b1"), ("S2", "b2"), ("b1", "j"), ("b2", "j"),
              ("j", "S1"), ("e", "End")] }

/-- A start event with two successors: the backbone follows only the first
one and never builds a branch. -/
def gEventSplit : Graph :=
  { tasks := [("A", none), ("B", none)]
    startEvents := [("Start", none)]
    endEvents := []
    xorGws := []
    andGws := []
    flows := [("Start", "A"), ("Start", "B")] }

/-- A process element emitted by `BPMNBuilder`: its id, its XML tag
(`task`, `startEvent`, `exclusiveGateway`, ...) and its `name` attribute. -/
structure BElem where
  id : String
  tag : String
  name : String
deriving DecidableEq

/-- The mutable state of `BPMNBuilder`: the shared id counter, the process
elements, the sequence flows (source/target refs, `none` when the builder
passes Python `None`), the recorded shape bounds, and the number of
diagram edge elements emitted. The `incoming`/`outgoing` reference
children and the edge waypoint coordinates are XML annotations that do not
feed back into any builder decision and are not modelled. -/
structure BState where
  nextId : Nat
  elements : List BElem
  flows : List (Option String × Option String)
  shapes : List (String × Int × Int × Int × Int)
  edges : Nat
deriving DecidableEq

/-- `new_id(prefix)`. -/
def newId (st : BState) (p : String) : String × BState :=
  (p ++ "_" ++ toString st.nextId, { st with nextId := st.nextId + 1 })

def addElem (st : BState) (id tag name : String) : BState :=
  { st with elements := st.elements ++ [⟨id, tag, name⟩] }

/-- `add_shape`. -/
def addShape (st : BState) (id : String) (x y w h : Int) : BState :=
  { st with shapes := st.shapes ++ [(id, x, y, w, h)] }

def hasShape (st : BState) (id : String) : Bool :=
  st.shapes.any (fun s => s.1 == id)

/-- `add_flow(src, tgt)`: allocate a flow id, append the sequence flow,
and, when both endpoints have recorded bounds, allocate a diagram edge id
and emit the edge. -/
def addFlow (st : BState) (src tgt : Option String) : BState :=
  let (_, st) := newId st "Flow"
  let st := { st with flows := st.flows ++ [(src, tgt)] }
  match src, tgt with
  | some s, some t =>
    if hasShape st s && hasShape st t then
      let (_, st) := newId st "Edge"
      { st with edges := st.edges + 1 }
    else st
  | _, _ => st

/-- Python's substring test `needle in hay`, on character lists. -/
def infixOfChars (needle : List Char) : List Char → Bool
  | [] => needle.isEmpty
  | c :: t => needle.isPrefixOf (c :: t) || infixOfChars needle t

/-- `name.lower()` on the characters of a string (the labels the builder
sees are ASCII, where `Char.toLower` agrees with Python). -/
def lowerChars (s : String) : List Char := s.toList.map Char.toLower

/-- Python's substring test `needle in hay.lower()`. -/
def strInLower (needle hay : String) : Bool :=
  infixOfChars needle.toList (lowerChars hay)

/-- The event tag choice of `BPMNBuilder.build`'s `EVENT` branch:
`"startEvent" if "start" in name.lower() else ("endEvent" if "end" in
name.lower() else "intermediateCatchEvent")`. -/
def eventTag (name : String) : String :=
  if strInLower "start" name then "startEvent"
  else if strInLower "end" name then "endEvent"
  else "intermediateCatchEvent"

mutual

/-- `BPMNBuilder.build(node, x, y)`: returns
`((entry_id, exit_id, x, y), state)`; `none` models the `IndexError` a
`LOOP` node with fewer than two children would raise. The recursion of
the source is structural on the tree; the fuel argument (one unit per
visited node) only makes the recursion structural on a `Nat` so that the
definition evaluates by kernel reduction — any fuel at least the node
count of the tree computes the source's result. -/
def build : Nat → BState → PNode → Int → Int →
    Option ((Option String × Option String × Int × Int) × BState)
  | 0, _, _, _, _ => none
  | fuel + 1, st, t, x, y =>
  match t with
  | .mk nt v cs =>
    if nt == "SEQ" then buildSeq fuel st cs x y none none
    else if nt == "TASK" then
      let (eid, st) := newId st "Task"
      let st := addElem st eid "task" (v.getD "Task")
      let st := addShape st eid x y 100 80
      some ((some eid, some eid, x, y), st)
    else if nt == "EVENT" then
      let (eid, st) := newId st "Event"
      let name := v.getD "Event"
      let st := addElem st eid (eventTag name) name
      let st := addShape st eid x y 36 36
      some ((some eid, some eid, x, y), st)
    else if nt == "XOR" || nt == "AND" then
      let kind := if nt == "XOR" then "exclusiveGateway" else "parallelGateway"
      let (sid, st) := newId st "Split"
      let st := addElem st sid kind nt
      let st := addShape st sid x y 50 50
      match buildBranches fuel st cs x (y - ((cs.length : Int) - 1) * 100) sid [] with
      | none => none
      | some (exits, st) =>
        let (jid, st) := newId st "Join"
        let st := addElem st jid kind "Join"
        let st := addShape st jid (x + 500) y 50 50
        let st := exits.foldl (fun st ex => addFlow st ex (some jid)) st
        some ((some sid, some jid, x + 500, y), st)
    else if nt == "LOOP" then
      match cs with
      | c0 :: c1 :: _ =>
        match build fuel st c0 x y with
        | none => none
        | some ((condEntry, condExit, _, _), st) =>
          match build fuel st c1 (x + 200) (y + 100) with
          | none => none
          | some ((bodyEntry, bodyExit, _, _), st) =>
            let st := addFlow st condExit bodyEntry
            let st := addFlow st bodyExit condEntry
            some ((condEntry, condExit, x + 400, y + 200), st)
      | _ => none
    else if nt == "NULL" then
      let (eid, st) := newId st "Null"
      let st := addElem st eid "task" (v.getD "None")
      let st := addShape st eid x y 80 60
      some ((some eid, some eid, x, y), st)
    else
      let (eid, st) := newId st "Unknown"
      let st := addElem st eid "task" (v.getD nt)
      let st := addShape st eid x y 100 80
      some ((some eid, some eid, x, y), st)

/-- The `SEQ` child loop of `build`: thread the cursor through each child,
connecting consecutive exits and entries. -/
def buildSeq : Nat → BState → List PNode → Int → Int →
    Option String → Option String →
    Option ((Option String × Option String × Int × Int) × BState)
  | _, st, [], x, y, firstEntry, prevExit =>
    let entry := match firstEntry with
      | some e => some e
      | none => prevExit
    some ((entry, prevExit, x, y), st)
  | 0, _, _ :: _, _, _, _, _ => none
  | fuel + 1, st, c :: rest, x, y, firstEntry, prevExit =>
    match build fuel st c x y with
    | none => none
    | some ((entry, ex, x, y), st) =>
      let st := match prevExit with
        | some pe => addFlow st (some pe) entry
        | none => st
      let firstEntry := match firstEntry with
        | none => entry
        | some e => some e
      buildSeq fuel st rest (x + 200) y firstEntry ex

/-- The branch loop of `build`'s `XOR`/`AND` case: build each child at the
fanned-out y offset, connect the split to each entry, collect exits. -/
def buildBranches : Nat → BState → List PNode → Int → Int → String →
    List (Option String) → Option (List (Option String) × BState)
  | _, st, [], _, _, _, exits => some (exits, st)
  | 0, _, _ :: _, _, _, _, _ => none
  | fuel + 1, st, c :: rest, x, branchY, splitId, exits =>
    match build fuel st c (x + 250) branchY with
    | none => none
    | some ((entry, ex, _, _), st) =>
      let st := addFlow st (some splitId) entry
      buildBranches fuel st rest x (branchY + 200) splitId (exits ++ [ex])

end

/-- `BPMNBuilder()` fresh state followed by `build(pst)` at the default
cursor `(100, 100)`. -/
def renderTree (t : PNode) :
    Option ((Option String × Option String × Int × Int) × BState) :=
  build 1000 ⟨1, [], [], [], 0⟩ t 100 100

/-- Count of task and event process elements in a builder state. -/
def countTaskEvent (st : BState) : Nat :=
  (st.elements.filter (fun e =>
    e.tag == "task" || e.tag == "startEvent" || e.tag == "endEvent" ||
      e.tag == "intermediateCatchEvent")).length

/-- Count of gateway elements of a given kind and name. -/
def countGw (st : BState) (kind name : String) : Nat :=
  (st.elements.filter (fun e => e.tag == kind && e.name == name)).length

/-- The whitespace characters of Python's `str.strip()`. -/
def isPySpace (c : Char) : Bool :=
  c == ' ' || c == '\t' || c == '\n' || c == '\r' || c == '\x0b' || c == '\x0c'

/-- `s.strip()` on character lists. -/
def pstrip (l : List Char) : List Char :=
  ((l.dropWhile isPySpace).reverse.dropWhile isPySpace).reverse

/-- `s.rstrip(",")` on character lists. -/
def rstripComma (l : List Char) : List Char :=
  (l.reverse.dropWhile (fun c => c == ',')).reverse

/-- `str(value)` as interpolated by the leaf case of `Node.__repr__`:
Python renders `None` as the four characters `None`. -/
def pyShow : Option String → List Char
  | none => "None".toList
  | some s => s.toList

mutual

/-- `Node.__repr__(level)` of `pst_umwandler.py`: leaves print as
`TAG(value)` behind the indentation, interior nodes print their children
on indented lines, each followed by a comma and newline. -/
def reprN (level : Nat) : PNode → List Char
  | .mk nt v cs =>
    let indent := List.replicate (2 * level) ' '
    if nt == "TASK" || nt == "EVENT" || nt == "NULL" || nt == "LOOPBACK" then
      indent ++ nt.toList ++ '(' :: (pyShow v ++ [')'])
    else
      indent ++ nt.toList ++ ['(', '\n'] ++
        (reprChildren (level + 1) cs ++ (indent ++ [')']))

def reprChildren (level : Nat) : List PNode → List Char
  | [] => []
  | c :: cs => reprN level c ++ ([',', '\n'] ++ reprChildren level cs)

end

/-- `\w` of the parser's regex (ASCII range, as used by the fixed tags). -/
def isWordChar (c : Char) : Bool := c.isAlphanum || c == '_'

/-- Index of the last occurrence of `c`, if any. -/
def lastIdx (c : Char) : List Char → Option Nat
  | [] => none
  | x :: xs =>
    match lastIdx c xs with
    | some i => some (i + 1)
    | none => if x == c then some 0 else none

/-- The anchored greedy regex `(\w+)\((.*)\)` (with `re.S`) of
`parse_block`: a maximal nonempty word-character prefix, an opening
parenthesis, and everything up to the last closing parenthesis. -/
def pyMatch (s : List Char) : Option (List Char × List Char) :=
  let w := s.takeWhile isWordChar
  if w.isEmpty then none
  else
    match s.drop w.length with
    | '(' :: r =>
      match lastIdx ')' r with
      | some i => some (w, r.take i)
      | none => none
    | _ => none

/-- The child-splitting loop of `parse_block`: scan the inside text,
tracking parenthesis depth, and cut at depth-0 commas; each chunk is
emitted stripped, and empty chunks are dropped
(`if buff.strip(): children.append(...)`). -/
def scanAux : List Char → Int → List Char → List (List Char) → List (List Char)
  | [], _, buff, acc =>
    if (pstrip buff).isEmpty then acc else acc ++ [pstrip buff]
  | c :: rest, depth, buff, acc =>
    if c == '(' then scanAux rest (depth + 1) (buff ++ [c]) acc
    else if c == ')' then scanAux rest (depth - 1) (buff ++ [c]) acc
    else if c == ',' && depth == 0 then
      scanAux rest depth []
        (if (pstrip buff).isEmpty then acc else acc ++ [pstrip buff])
    else scanAux rest depth (buff ++ [c]) acc

def scanChildren (s : List Char) : List (List Char) := scanAux s 0 [] []

/-- `parse_block(s)` of `clean_bpmn_generator.py`. The recursion of the
source is on strictly shorter strings; the fuel argument makes that
explicit (`parse_pst_text` supplies `length + 1`). An unmatched head
returns `None`; unparsable children are silently dropped
(`[ch for ch in children if ch]`). -/
def parseBlock : Nat → List Char → Option PNode
  | 0, _ => none
  | fuel + 1, s =>
    match pyMatch s with
    | none => none
    | some (w, inside) =>
      let nt := String.mk w
      let inside := pstrip inside
      if nt == "TASK" || nt == "EVENT" || nt == "NULL" then
        let val := rstripComma inside
        some (.mk nt (if val.isEmpty then none else some (String.mk val)) [])
      else
        some (.mk nt none
          ((scanChildren inside).filterMap (fun b => parseBlock fuel b)))

/-- `parse_pst_text(text)`: strip the input and parse the single block. -/
def parse_pst_text (s : List Char) : Option PNode :=
  parseBlock (s.length + 1) (pstrip s)

mutual

/-- Whether a tree contains a node with the given tag. -/
def containsTag (tag : String) : PNode → Bool
  | .mk nt _ cs => nt == tag || containsTagList tag cs

def containsTagList (tag : String) : List PNode → Bool
  | [] => false
  | c :: cs => containsTag tag c || containsTagList tag cs

end

mutual

/-- Whether a tree contains a `SEQ` node with exactly one child. -/
def hasSoloSeq : PNode → Bool
  | .mk nt _ cs => (nt == "SEQ" && cs.length == 1) || hasSoloSeqList cs

def hasSoloSeqList : List PNode → Bool
  | [] => false
  | c :: cs => hasSoloSeq c || hasSoloSeqList cs

end

/-- The shapes the engine produces as the body of a `LOOP` node: a bare
`NULL`, or the synthetic one-task sequence. -/
def loopBodyOK : PNode → Bool
  | .mk "NULL" none [] => true
  | .mk "SEQ" none [.mk "TASK" (some _) []] => true
  | _ => false

mutual

/-- The single-child-collapse invariant, with the one exception the engine
actually produces: a `SEQ` node never has exactly one child unless it is
the synthetic single-task body of a `LOOP` node (whose shape
`loopShapeOK` fixes). -/
def seqOK : PNode → Bool
  | .mk nt _ cs =>
    if nt == "LOOP" then loopShapeOK cs
    else (!(nt == "SEQ") || !(cs.length == 1)) && seqOKList cs

/-- The children of a `LOOP` node: exactly a condition (itself subject to
the invariant) and a synthetic body. -/
def loopShapeOK : List PNode → Bool
  | [c, b] => seqOK c && loopBodyOK b
  | _ => false

def seqOKList : List PNode → Bool
  | [] => true
  | c :: cs => seqOK c && seqOKList cs

end

/-- The tree the engine structures `gRound` into. -/
def tRound : PNode :=
  .mk "SEQ" none
    [.mk "EVENT" (some "Start") [], .mk "TASK" (some "A") [],
     .mk "XOR" (some "GW") [.mk "TASK" (some "B") [], .mk "TASK" (some "C") []],
     .mk "TASK" (some "D") [], .mk "EVENT" (some "End") []]

/-- The tree the engine structures `gLoop` into: the cycle closes on the
backbone as a `LOOPBACK` sentinel. -/
def tLoop : PNode :=
  .mk "SEQ" none
    [.mk "EVENT" (some "Start") [], .mk "TASK" (some "A") [],
     .mk "TASK" (some "B") [], .mk "LOOPBACK" (some "A") []]

/-- The tree the engine structures `gBack` into; its `LOOP` body is a
single-child `SEQ`. -/
def tBack : PNode :=
  .mk "SEQ" none
    [.mk "EVENT" (some "Start") [],
     .mk "XOR" (some "GW")
       [.mk "LOOP" none
         [.mk "NULL" none [],
          .mk "SEQ" none [.mk "TASK" (some "Body_of_GW") []]],
        .mk "SEQ" none [.mk "TASK" (some "C") [], .mk "EVENT" (some "End") []]]]

/-- The tree the engine structures `gEventSplit` into: the two-successor
start event is not treated as a split. -/
def tEventSplit : PNode :=
  .mk "SEQ" none [.mk "EVENT" (some "Start") [], .mk "TASK" (some "A") []]

/-- The builder state produced by rendering `tRound`. -/
def renderedRound : Option BState := (renderTree tRound).map Prod.snd

/-- C1 (counterexample): on the graph
`Start -> A -> GW -> {B, C} -> J -> D -> End`, structuring does return the
claimed tree, but rendering that tree emits six task/event elements
(events `Start`, `End` and tasks `A`, `B`, `C`, `D`), not five as the
claim states. -/
theorem claim_C1_counterexample :
    structureGraph gRound 100 = some tRound ∧
    renderedRound.map countTaskEvent ≠ some 5 := by decide

/-- C1 (amended): structuring the round-trip graph yields
`SEQ[EVENT(Start), TASK(A), XOR[TASK(B), TASK(C)], TASK(D), EVENT(End)]`,
and rendering that tree produces exactly six task/event elements, one
exclusive split gateway, one exclusive join gateway, and as many sequence
flows as the original graph has edges (eight). -/
theorem claim_C1_amended :
    structureGraph gRound 100 = some tRound ∧
    renderedRound.map countTaskEvent = some 6 ∧
    renderedRound.map (fun st => countGw st "exclusiveGateway" "XOR") = some 1 ∧
    renderedRound.map (fun st => countGw st "exclusiveGateway" "Join") = some 1 ∧
    renderedRound.map (fun st => st.flows.length) = some gRound.flows.length := by
  decide

/-- C4 (counterexample): on `Start -> A -> GW -> B -> A` the gateway has a
single successor, so the cycle closes on the backbone: the engine
terminates with a `LOOPBACK` sentinel and the resulting tree contains no
`LOOP` node at all, contrary to the claim. -/
theorem claim_C4_counterexample :
    structureGraph gLoop 100 = some tLoop ∧
    containsTag "LOOP" tLoop = false := by decide

/-- C4 (amended): structuring `Start -> A -> GW -> B -> A` terminates and
yields exactly `SEQ[EVENT(Start), TASK(A), TASK(B), LOOPBACK(A)]` — the
revisit of `A` is recorded as a backbone `Loopback` sentinel covering `A`,
not as a `Loop` node (those arise only inside branch building under an
active split). -/
theorem claim_C4_amended : structureGraph gLoop 100 = some tLoop := by decide

/-- C5 (counterexample): on `Start -> GW -> {B, C}` with `B -> GW` and
`C -> End`, the back-edge branch produces a `LOOP` whose synthetic body is
`SEQ([TASK(Body_of_GW)])` — a `SEQ` node with exactly one child, so the
claimed invariant fails. -/
theorem claim_C5_counterexample :
    structureGraph gBack 100 = some tBack ∧
    hasSoloSeq tBack = true := by decide

/-- C9 (counterexample): on a graph whose start event has two successors
(`Start -> A`, `Start -> B`), the backbone does not treat the event as a
split: it enqueues only the first successor and the result
`SEQ[EVENT(Start), TASK(A)]` contains no `Branch` node, contrary to the
claim's "whatever its kind (task, event, or gateway)". -/
theorem claim_C9_counterexample :
    structureGraph gEventSplit 100 = some tEventSplit ∧
    containsTag "XOR" tEventSplit = false ∧
    containsTag "AND" tEventSplit = false := by decide

/-- C6 (counterexample): a `TASK` leaf with no label serializes to
`TASK(None)` and parses back with the four-character label `"None"`, which
is not structurally equal to the original tree (labels differ). -/
theorem claim_C6_counterexample :
    parse_pst_text (reprN 0 (.mk "TASK" none [])) =
      some (.mk "TASK" (some "None") []) ∧
    PNode.mk "TASK" (some "None") [] ≠ PNode.mk "TASK" none [] := by decide

/-- C10: rendering an `EVENT` leaf appends exactly one process element
whose tag is chosen from the leaf's label: `startEvent` when the lowered
label contains `start`, else `endEvent` when it contains `end`, else
`intermediateCatchEvent`; a leaf with no label gets the name `Event`
(whose lowering contains neither `start` nor `end`, hence an intermediate
catch event), and the element is both entry and exit of the leaf. -/
theorem claim_C10 (fuel : Nat) (st : BState) (v : Option String) (x y : Int) :
    (build (fuel + 1) st (.mk "EVENT" v []) x y).map
        (fun r => ((r.2).elements, r.1)) =
      some ((st.elements ++
        [⟨"Event_" ++ toString st.nextId,
          (if strInLower "start" (v.getD "Event") then "startEvent"
           else if strInLower "end" (v.getD "Event") then "endEvent"
           else "intermediateCatchEvent"),
          v.getD "Event"⟩],
        (some ("Event_" ++ toString st.nextId),
         some ("Event_" ++ toString st.nextId), x, y))) := rfl

/-- The selection policy described by the specification for `find_join`:
the first list element attaining the minimal key (the earliest candidate
in iteration order among those of minimal score). -/
def firstMinBy (key : String → Nat) : List String → Option String
  | [] => none
  | x :: xs =>
    match firstMinBy key xs with
    | none => some x
    | some m => if key x ≤ key m then some x else some m

theorem sortInsert_ne_nil (key : String → Nat) (x : String) (l : List String) :
    sortInsert key x l ≠ [] := by
  cases l with
  | nil => simp [sortInsert]
  | cons y ys =>
    rw [sortInsert]
    split <;> simp

theorem sortByKey_eq_nil (key : String → Nat) :
    ∀ l : List String, sortByKey key l = [] → l = []
  | [], _ => rfl
  | x :: xs, h => absurd h (by rw [sortByKey]; exact sortInsert_ne_nil key x _)

theorem head?_sortInsert (key : String → Nat) (x y : String) (ys : List String) :
    (sortInsert key x (y :: ys)).head? =
      if key x ≤ key y then some x else some y := by
  rw [sortInsert]
  split <;> simp

/-- Head of the stable sort = first element of minimal key. -/
theorem head?_sortByKey (key : String → Nat) :
    ∀ l : List String, (sortByKey key l).head? = firstMinBy key l
  | [] => rfl
  | x :: xs => by
    rw [sortByKey, firstMinBy]
    cases h : sortByKey key xs with
    | nil =>
      have hxs : xs = [] := sortByKey_eq_nil key xs h
      subst hxs
      simp [sortInsert, firstMinBy]
    | cons y ys =>
      have ih : firstMinBy key xs = some y := by
        rw [← head?_sortByKey key xs, h]; rfl
      rw [ih, head?_sortInsert]

theorem firstMinBy_cons (key : String → Nat) (x : String) (xs : List String) :
    firstMinBy key (x :: xs) =
      match firstMinBy key xs with
      | none => some x
      | some m => if key x ≤ key m then some x else some m := rfl

theorem firstMinBy_eq_none (key : String → Nat) :
    ∀ l : List String, firstMinBy key l = none ↔ l = []
  | [] => by simp [firstMinBy]
  | x :: xs => by
    constructor
    · intro h
      rw [firstMinBy_cons] at h
      cases hx : firstMinBy key xs with
      | none =>
        rw [hx] at h
        have h' : (some x : Option String) = none := h
        cases h'
      | some m =>
        rw [hx] at h
        have h' : (if key x ≤ key m then some x else some m) = none := h
        by_cases hle : key x ≤ key m
        · rw [if_pos hle] at h'; cases h'
        · rw [if_neg hle] at h'; cases h'
    · intro h; cases h

theorem firstMinBy_mem (key : String → Nat) :
    ∀ (l : List String) (j : String), firstMinBy key l = some j → j ∈ l
  | [], j, h => by cases h
  | x :: xs, j, h => by
    rw [firstMinBy_cons] at h
    cases hx : firstMinBy key xs with
    | none =>
      rw [hx] at h
      have h' : some x = some j := h
      cases h'
      exact List.mem_cons_self x xs
    | some m =>
      rw [hx] at h
      have h' : (if key x ≤ key m then some x else some m) = some j := h
      by_cases hle : key x ≤ key m
      · rw [if_pos hle] at h'
        cases h'
        exact List.mem_cons_self x xs
      · rw [if_neg hle] at h'
        cases h'
        exact List.mem_cons_of_mem x (firstMinBy_mem key xs j hx)

theorem firstMinBy_min (key : String → Nat) :
    ∀ (l : List String) (j : String), firstMinBy key l = some j →
      ∀ c ∈ l, key j ≤ key c
  | [], j, h => by cases h
  | x :: xs, j, h => by
    rw [firstMinBy_cons] at h
    cases hx : firstMinBy key xs with
    | none =>
      rw [hx] at h
      have h' : some x = some j := h
      cases h'
      have hxs : xs = [] := (firstMinBy_eq_none key xs).1 hx
      subst hxs
      intro c hc
      rcases List.mem_singleton.1 hc with rfl
      exact le_refl _
    | some m =>
      rw [hx] at h
      have h' : (if key x ≤ key m then some x else some m) = some j := h
      have hmin := firstMinBy_min key xs m hx
      by_cases hle : key x ≤ key m
      · rw [if_pos hle] at h'
        cases h'
        intro c hc
        rcases List.mem_cons.1 hc with rfl | hc
        · exact le_refl _
        · exact le_trans hle (hmin c hc)
      · rw [if_neg hle] at h'
        cases h'
        intro c hc
        rcases List.mem_cons.1 hc with rfl | hc
        · exact le_of_lt (lt_of_not_le hle)
        · exact hmin c hc

theorem firstMinBy_first (key : String → Nat) :
    ∀ (l : List String) (j : String), firstMinBy key l = some j →
      ∀ c ∈ l, key c = key j → l.indexOf j ≤ l.indexOf c
  | [], j, h => by cases h
  | x :: xs, j, h => by
    rw [firstMinBy_cons] at h
    cases hx : firstMinBy key xs with
    | none =>
      rw [hx] at h
      have h' : some x = some j := h
      cases h'
      intro c _ _
      simp [List.indexOf_cons_self]
    | some m =>
      rw [hx] at h
      have h' : (if key x ≤ key m then some x else some m) = some j := h
      by_cases hle : key x ≤ key m
      · rw [if_pos hle] at h'
        cases h'
        intro c _ _
        simp [List.indexOf_cons_self]
      · rw [if_neg hle] at h'
        cases h'
        have hmx : key j < key x := lt_of_not_le hle
        intro c hc hkey
        have hjne : x ≠ j := by
          intro hxj
          rw [← hxj] at hmx
          exact lt_irrefl _ hmx
        rcases List.mem_cons.1 hc with rfl | hc
        · rw [hkey] at hmx
          exact absurd hmx (lt_irrefl _)
        · have hcne : x ≠ c := by
            intro hxc
            rw [← hxc] at hkey
            rw [hkey] at hmx
            exact absurd hmx (lt_irrefl _)
          rw [List.indexOf_cons_ne _ hjne, List.indexOf_cons_ne _ hcne]
          exact Nat.succ_le_succ (firstMinBy_first key xs j hx c hc hkey)

/-- C2: `find_join` returns `none` when the split has at most one
successor; otherwise it returns `none` exactly when no common
forward-reachable node is a same-kind gateway of in-degree above one
(`joinCands`); and when candidates exist it returns a candidate of
minimal maximal per-branch BFS distance (`joinScore`), the earliest such
candidate in candidate-iteration order. -/
theorem claim_C2 (g : Graph) (split kind : String) :
    ((g.succ split).length ≤ 1 → find_join g split kind = none) ∧
    (¬(g.succ split).length ≤ 1 →
      ((find_join g split kind = none ↔ joinCands g split kind = []) ∧
       ∀ j, find_join g split kind = some j →
         j ∈ joinCands g split kind ∧
         (∀ c ∈ joinCands g split kind,
            joinScore g split j ≤ joinScore g split c) ∧
         (∀ c ∈ joinCands g split kind,
            joinScore g split c = joinScore g split j →
              (joinCands g split kind).indexOf j ≤
                (joinCands g split kind).indexOf c))) := by
  have hfind : ¬(g.succ split).length ≤ 1 →
      find_join g split kind =
        firstMinBy (joinScore g split) (joinCands g split kind) := by
    intro h
    rw [find_join, if_neg h, head?_sortByKey]
  refine ⟨fun h => by rw [find_join, if_pos h], fun h => ⟨?_, ?_⟩⟩
  · rw [hfind h]
    exact firstMinBy_eq_none _ _
  · intro j hj
    rw [hfind h] at hj
    exact ⟨firstMinBy_mem _ _ j hj, firstMinBy_min _ _ j hj,
      firstMinBy_first _ _ j hj⟩

/-- C2 (witness): on the round-trip graph, `find_join` at `GW` finds `J`,
and the theorem's characterization is realized there concretely. -/
theorem claim_C2_witness :
    ¬(gRound.succ "GW").length ≤ 1 ∧
    find_join gRound "GW" "XOR" = some "J" ∧
    "J" ∈ joinCands gRound "GW" "XOR" := by
  refine ⟨by decide, by decide, ?_⟩
  have h := (claim_C2 gRound "GW" "XOR").2 (by decide)
  exact (h.2 "J" (by decide)).1

theorem mem_nodeIds_of_mem_startIds (g : Graph) (s : String)
    (h : s ∈ g.startIds) : s ∈ g.nodeIds := by
  unfold Graph.startIds at h
  unfold Graph.nodeIds Graph.events
  simp only [List.map_append, List.mem_append, List.append_assoc]
  rcases List.mem_map.1 h with ⟨p, hp, rfl⟩
  exact Or.inr (Or.inl (List.mem_map_of_mem Prod.fst hp))

/-- C3: the node `chooseStart` picks respects the documented priority:
if some start event has no predecessors the choice is such a start event;
otherwise, if there is any start event, the choice is a start event;
otherwise, if some node has no predecessors, the choice is such a node;
and in every case the choice is a node of the graph. -/
theorem claim_C3 (g : Graph) (s : String) (h : chooseStart g = some s) :
    ((∃ se ∈ g.startIds, g.indeg se = 0) → s ∈ g.startIds ∧ g.indeg s = 0) ∧
    (g.startIds ≠ [] → s ∈ g.startIds) ∧
    (g.startIds = [] → (∃ n ∈ g.nodeIds, g.indeg n = 0) →
      s ∈ g.nodeIds ∧ g.indeg s = 0) ∧
    s ∈ g.nodeIds := by
  unfold chooseStart at h
  by_cases hse : g.startEvents.isEmpty
  · rw [if_pos hse] at h
    have hstart : g.startIds = [] := by
      rw [List.isEmpty_iff] at hse
      simp [Graph.startIds, hse]
    cases hfil : (g.nodeIds.filter (fun n => g.indeg n == 0)) with
    | cons c rest =>
      rw [hfil] at h
      have h' : some c = some s := h
      cases h'
      have hc := List.mem_filter.1 (hfil ▸ List.mem_cons_self s rest)
      have hdeg : g.indeg s = 0 := by
        have := hc.2
        simpa using this
      refine ⟨?_, ?_, fun _ _ => ⟨hc.1, hdeg⟩, hc.1⟩
      · rintro ⟨se, hmem, -⟩
        rw [hstart] at hmem
        cases hmem
      · intro hne
        exact absurd hstart hne
    | nil =>
      rw [hfil] at h
      have hnone : ∀ n ∈ g.nodeIds, ¬g.indeg n = 0 := by
        intro n hn hdeg
        have hpred : (fun n => g.indeg n == 0) n = true := by simpa using hdeg
        have hmem : n ∈ g.nodeIds.filter (fun n => g.indeg n == 0) :=
          List.mem_filter.2 ⟨hn, hpred⟩
        rw [hfil] at hmem
        cases hmem
      have hsmem : s ∈ g.nodeIds := by
        cases ht : g.tasks with
        | cons t ts =>
          rw [ht] at h
          have h' : some t.1 = some s := h
          cases h'
          have htm : t ∈ g.tasks := by rw [ht]; exact List.mem_cons_self t ts
          unfold Graph.nodeIds
          simp only [List.mem_append]
          exact Or.inl (Or.inl (List.mem_map_of_mem Prod.fst htm))
        | nil =>
          rw [ht] at h
          cases hev : g.events with
          | cons e es =>
            rw [hev] at h
            have h' : some e.1 = some s := h
            cases h'
            have hem : e ∈ g.events := by rw [hev]; exact List.mem_cons_self e es
            unfold Graph.nodeIds
            simp only [List.mem_append]
            exact Or.inl (Or.inr (List.mem_map_of_mem Prod.fst hem))
          | nil =>
            rw [hev] at h
            cases hgw : g.gateways with
            | cons w ws =>
              rw [hgw] at h
              have h' : some w.1 = some s := h
              cases h'
              have hwm : w ∈ g.gateways := by
                rw [hgw]; exact List.mem_cons_self w ws
              unfold Graph.nodeIds
              simp only [List.mem_append]
              exact Or.inr (List.mem_map_of_mem Prod.fst hwm)
            | nil =>
              rw [hgw] at h
              cases h
      refine ⟨?_, ?_, ?_, hsmem⟩
      · rintro ⟨se, hmem, -⟩
        rw [hstart] at hmem
        cases hmem
      · intro hne
        exact absurd hstart hne
      · rintro - ⟨n, hn, hdeg⟩
        exact absurd hdeg (hnone n hn)
  · rw [if_neg hse] at h
    have hne : g.startIds ≠ [] := by
      intro hnil
      rw [List.isEmpty_iff] at hse
      unfold Graph.startIds at hnil
      exact hse (List.map_eq_nil_iff.1 hnil)
    cases hfind : g.startIds.find? (fun sid => g.indeg sid == 0) with
    | some se =>
      rw [hfind] at h
      have h' : some se = some s := h
      cases h'
      have hmem : s ∈ g.startIds := List.mem_of_find?_eq_some hfind
      have hdeg : g.indeg s = 0 := by
        have := List.find?_some hfind
        simpa using this
      exact ⟨fun _ => ⟨hmem, hdeg⟩, fun _ => hmem,
        fun hnil _ => absurd hnil hne, mem_nodeIds_of_mem_startIds g s hmem⟩
    | none =>
      rw [hfind] at h
      have h' : g.startIds.head? = some s := h
      have hmem : s ∈ g.startIds := by
        cases hl : g.startIds with
        | nil => rw [hl] at h'; cases h'
        | cons a l =>
          rw [hl] at h'
          have h'' : some a = some s := h'
          cases h''
          exact List.mem_cons_self s l
      have hnostart : ∀ x ∈ g.startIds, ¬g.indeg x = 0 := by
        intro x hx hdeg
        have hfx := List.find?_eq_none.1 hfind x hx
        simp at hfx
        exact hfx hdeg
      refine ⟨?_, fun _ => hmem, fun hnil _ => absurd hnil hne,
        mem_nodeIds_of_mem_startIds g s hmem⟩
      rintro ⟨se, hsee, hdeg⟩
      exact absurd hdeg (hnostart se hsee)

/-- C3 (witness): on the round-trip graph the chosen start node is the
indegree-zero start event `Start`. -/
theorem claim_C3_witness :
    "Start" ∈ gRound.startIds ∧ gRound.indeg "Start" = 0 := by
  exact (claim_C3 gRound "Start" (by decide)).1 (by decide)

/-- C9 (amended): on the backbone, every *task or gateway* node with more
than one successor is treated as a split: the join is computed via
`find_join`, every branch is built by the branch builder bounded by that
join (a branch starting at the join itself collapses to `NULL`, which is
exactly what the bounded branch builder returns on the join — final
conjunct), the result is wrapped as a `Branch` node (a task split also
keeps its ordinary task leaf, appended just before the branch node), the
join's successor is enqueued when a join exists, and a gateway split
without a join stops the backbone; events with several successors are
*not* treated as splits (see the counterexample). -/
theorem claim_C9_amended (g : Graph) (fuel : Nat) (c : String)
    (q seen : List String) (acc : List PNode)
    (hseen : seen.contains c = false)
    (hmulti : 1 < (g.succ c).length) :
    (∀ nm, g.tasks.lookup c = some nm →
      bpmGo g (fuel + 1) (c :: q) seen acc =
        match (g.succ c).mapM (fun o =>
            match find_join g c "XOR" with
            | some j =>
              if o == j then some nullNode
              else bpuGo g fuel o (find_join g c "XOR") [c] (some o) [] []
            | none => bpuGo g fuel o none [c] (some o) [] []) with
        | none => none
        | some kids =>
          bpmGo g fuel
            (match find_join g c "XOR" with
             | some j => q ++ ((g.succ j).head?.toList)
             | none => q)
            (c :: seen)
            ((acc ++ [.mk "TASK" (some (labelOf c nm)) []]) ++
              [.mk "XOR" (some (labelOf c nm)) kids])) ∧
    (∀ nm, g.tasks.lookup c = none → g.events.lookup c = none →
        g.gateways.lookup c = some nm →
      (∀ j, find_join g c (gwKind g c) = some j →
        bpmGo g (fuel + 1) (c :: q) seen acc =
          match (g.succ c).mapM (fun o =>
              if o == j then some nullNode
              else bpuGo g fuel o (some j) [c] (some o) [] []) with
          | none => none
          | some kids =>
            bpmGo g fuel (q ++ ((g.succ j).head?.toList)) (c :: seen)
              (acc ++ [.mk (gwKind g c) (some (labelOf c nm)) kids])) ∧
      (find_join g c (gwKind g c) = none →
        bpmGo g (fuel + 1) (c :: q) seen acc =
          match (g.succ c).mapM (fun o =>
              bpuGo g fuel o none [c] (some o) [] []) with
          | none => none
          | some kids =>
            some (normalizeSeq
              (acc ++ [.mk (gwKind g c) (some (labelOf c nm)) kids])))) ∧
    (∀ (j : String) (stack : List String) (f : Nat),
      bpuGo g (f + 1) j (some j) stack (some j) [] [] = some nullNode) := by
  refine ⟨?_, ?_, ?_⟩
  · intro nm htask
    rcases hsucc : g.succ c with - | ⟨a, - | ⟨b, t⟩⟩
    · rw [hsucc] at hmulti; simp at hmulti
    · rw [hsucc] at hmulti; simp at hmulti
    · rw [bpmGo, hseen, htask, hsucc]
      simp only [Bool.false_eq_true, if_false]
  · intro nm htask hevent hgw
    have houtdeg : g.outdeg c > 1 := hmulti
    constructor
    · intro j hjoin
      rw [bpmGo, hseen, htask, hevent, hgw]
      simp only [if_pos houtdeg, hjoin, Bool.false_eq_true, if_false]
    · intro hjoin
      rw [bpmGo, hseen, htask, hevent, hgw]
      simp only [if_pos houtdeg, hjoin, Bool.false_eq_true, if_false]
  · intro j stack f
    rw [bpuGo]
    simp [normalizeSeq, nullNode]

theorem seqOKList_cons (a : PNode) (l : List PNode) :
    seqOKList (a :: l) = (seqOK a && seqOKList l) := by
  rw [seqOKList]

theorem seqOKList_append (a b : List PNode) :
    seqOKList (a ++ b) = (seqOKList a && seqOKList b) := by
  induction a with
  | nil => rw [List.nil_append, seqOKList, Bool.true_and]
  | cons x xs ih =>
    rw [List.cons_append, seqOKList_cons, seqOKList_cons, ih, Bool.and_assoc]

theorem seqOK_leafTASK (v : Option String) : seqOK (.mk "TASK" v []) = true :=
  rfl

theorem seqOK_leafEVENT (v : Option String) : seqOK (.mk "EVENT" v []) = true :=
  rfl

theorem seqOK_leafLOOPBACK (v : Option String) :
    seqOK (.mk "LOOPBACK" v []) = true := rfl

theorem seqOK_nullNode : seqOK nullNode = true := rfl

theorem seqOKList_append_one (acc : List PNode) (t : PNode)
    (ha : seqOKList acc = true) (ht : seqOK t = true) :
    seqOKList (acc ++ [t]) = true := by
  rw [seqOKList_append, ha, seqOKList_cons, ht]
  rfl

theorem seqOK_normalizeSeq (acc : List PNode) (h : seqOKList acc = true) :
    seqOK (normalizeSeq acc) = true := by
  match acc with
  | [] => rfl
  | [a] =>
    rw [seqOKList_cons, Bool.and_eq_true] at h
    exact h.1
  | a :: b :: l =>
    show seqOK (.mk "SEQ" none (a :: b :: l)) = true
    rw [seqOK]
    simp [h]

theorem seqOK_tag_notSeqLoop (nt : String) (v : Option String)
    (cs : List PNode) (h1 : (nt == "LOOP") = false) (h2 : (nt == "SEQ") = false)
    (h3 : seqOKList cs = true) : seqOK (.mk nt v cs) = true := by
  rw [seqOK, h1]
  simp [h2, h3]

theorem seqOK_loopNode (cond body : PNode) (hc : seqOK cond = true)
    (hb : loopBodyOK body = true) :
    seqOK (.mk "LOOP" none [cond, body]) = true := by
  rw [seqOK]
  simp only [show (("LOOP" : String) == "LOOP") = true from rfl, if_true]
  rw [loopShapeOK, hc, hb]
  rfl

theorem seqOK_branchNode (g : Graph) (c : String) (v : Option String)
    (kids : List PNode) (hk : seqOKList kids = true) :
    seqOK (.mk (gwKind g c) v kids) = true := by
  have hkind : gwKind g c = "XOR" ∨ gwKind g c = "AND" := by
    unfold gwKind
    split
    · exact Or.inl rfl
    split
    · exact Or.inr rfl
    · exact Or.inl rfl
  rcases hkind with h | h <;> rw [h]
  · exact seqOK_tag_notSeqLoop "XOR" v kids rfl rfl hk
  · exact seqOK_tag_notSeqLoop "AND" v kids rfl rfl hk

theorem seqOKList_mapM (f : String → Option PNode) :
    ∀ (l : List String) (ks : List PNode),
      (∀ o ∈ l, ∀ t, f o = some t → seqOK t = true) →
      l.mapM f = some ks → seqOKList ks = true := by
  intro l
  induction l with
  | nil =>
    intro ks _ hm
    rw [List.mapM_nil] at hm
    cases hm
    rfl
  | cons o os ih =>
    intro ks hf hm
    rw [List.mapM_cons] at hm
    cases ho : f o with
    | none => rw [ho] at hm; cases hm
    | some t =>
      rw [ho] at hm
      cases hos : os.mapM f with
      | none => rw [hos] at hm; cases hm
      | some ts =>
        rw [hos] at hm
        have hm' : some (t :: ts) = ks := hm
        cases hm'
        rw [seqOKList_cons,
          ih ts (fun o ho t => hf o (List.mem_cons_of_mem _ ho) t) hos,
          hf o (List.mem_cons_self o os) t ho]
        rfl

/-- Every tree the branch builder returns satisfies the collapse
invariant, provided the accumulated children do. -/
theorem bpuGo_seqOK (g : Graph) :
    ∀ (fuel : Nat) (start : String) (stop : Option String)
      (stack : List String) (cur : Option String) (seen : List String)
      (acc : List PNode),
      seqOKList acc = true →
      ∀ t, bpuGo g fuel start stop stack cur seen acc = some t →
        seqOK t = true := by
  intro fuel
  induction fuel with
  | zero =>
    intro start stop stack cur seen acc _ t h
    cases h
  | succ f ih =>
    intro start stop stack cur seen acc hacc t h
    cases cur with
    | none =>
      simp only [bpuGo, Option.some.injEq] at h
      cases h
      exact seqOK_normalizeSeq acc hacc
    | some c =>
      simp only [bpuGo] at h
      split at h
      · cases h
        exact seqOK_normalizeSeq acc hacc
      split at h
      · cases h
        exact seqOK_normalizeSeq acc hacc
      split at h
      · -- loopback hit: a LOOP node is returned
        cases h
        refine seqOK_loopNode _ _ (seqOK_normalizeSeq acc hacc) ?_
        split
        · rfl
        · rfl
      -- no loopback: dispatch on node kind
      split at h
      · -- task leaf
        exact ih start stop stack _ (c :: seen) _
          (seqOKList_append_one acc _ hacc (seqOK_leafTASK _)) t h
      split at h
      · -- event leaf
        exact ih start stop stack _ (c :: seen) _
          (seqOKList_append_one acc _ hacc (seqOK_leafEVENT _)) t h
      split at h
      · -- gateway
        split at h
        · -- split gateway
          split at h
          · cases h
            exact seqOK_normalizeSeq acc hacc
          · split at h
            · cases h
            · rename_i kids hkids
              refine ih start stop stack _ (c :: seen) _ ?_ t h
              refine seqOKList_append_one acc _ hacc ?_
              refine seqOK_branchNode g c _ kids ?_
              refine seqOKList_mapM _ (g.succ c) kids ?_ hkids
              intro o _ t' ht'
              split at ht'
              · cases ht'
                exact seqOK_nullNode
              · exact ih o (find_join g c (gwKind g c)) (stack ++ [c])
                  (some o) [] [] rfl t' ht'
        · -- pass-through gateway
          exact ih start stop stack _ (c :: seen) acc hacc t h
      · -- unknown node kind
        cases h
        exact seqOK_normalizeSeq acc hacc

/-- Every tree the backbone builder returns satisfies the collapse
invariant, provided the accumulated children do. -/
theorem bpmGo_seqOK (g : Graph) :
    ∀ (fuel : Nat) (q seen : List String) (acc : List PNode),
      seqOKList acc = true →
      ∀ t, bpmGo g fuel q seen acc = some t → seqOK t = true := by
  intro fuel
  induction fuel with
  | zero =>
    intro q seen acc _ t h
    cases h
  | succ f ih =>
    intro q seen acc hacc t h
    cases q with
    | nil =>
      simp only [bpmGo, Option.some.injEq] at h
      cases h
      exact seqOK_normalizeSeq acc hacc
    | cons c rest =>
      simp only [bpmGo] at h
      split at h
      · -- loopback sentinel
        cases h
        exact seqOK_normalizeSeq _
          (seqOKList_append_one acc _ hacc (seqOK_leafLOOPBACK _))
      split at h
      · -- task
        split at h
        · exact ih rest (c :: seen) _
            (seqOKList_append_one acc _ hacc (seqOK_leafTASK _)) t h
        · exact ih (rest ++ [_]) (c :: seen) _
            (seqOKList_append_one acc _ hacc (seqOK_leafTASK _)) t h
        · -- task split
          split at h
          · cases h
          · rename_i kids hkids
            refine ih _ (c :: seen) _ ?_ t h
            refine seqOKList_append_one _ _
              (seqOKList_append_one acc _ hacc (seqOK_leafTASK _)) ?_
            refine seqOK_tag_notSeqLoop "XOR" _ kids rfl rfl ?_
            refine seqOKList_mapM _ (g.succ c) kids ?_ hkids
            intro o _ t' ht'
            split at ht'
            · split at ht'
              · cases ht'
                exact seqOK_nullNode
              · exact bpuGo_seqOK g f o _ [c] (some o) [] [] rfl t' ht'
            · exact bpuGo_seqOK g f o none [c] (some o) [] [] rfl t' ht'
      split at h
      · -- event
        exact ih _ (c :: seen) _
          (seqOKList_append_one acc _ hacc (seqOK_leafEVENT _)) t h
      split at h
      · -- gateway
        split at h
        · -- split gateway
          split at h
          · -- no join: the backbone stops with the branch node appended
            split at h
            · cases h
            · rename_i kids hkids
              cases h
              refine seqOK_normalizeSeq _ ?_
              refine seqOKList_append_one acc _ hacc ?_
              refine seqOK_branchNode g c _ kids ?_
              refine seqOKList_mapM _ (g.succ c) kids ?_ hkids
              intro o _ t' ht'
              exact bpuGo_seqOK g f o none [c] (some o) [] [] rfl t' ht'
          · -- join found
            rename_i j hj
            split at h
            · cases h
            · rename_i kids hkids
              refine ih _ (c :: seen) _ ?_ t h
              refine seqOKList_append_one acc _ hacc ?_
              refine seqOK_branchNode g c _ kids ?_
              refine seqOKList_mapM _ (g.succ c) kids ?_ hkids
              intro o _ t' ht'
              split at ht'
              · cases ht'
                exact seqOK_nullNode
              · exact bpuGo_seqOK g f o (some j) [c] (some o) [] [] rfl t' ht'
        · -- pass-through gateway
          split at h
          · exact ih _ (c :: seen) acc hacc t h
          · exact ih _ (c :: seen) acc hacc t h
      · -- unknown node kind
        cases h
        exact seqOK_normalizeSeq acc hacc

/-- C5 (amended): no tree produced by the structuring engine — by the
branch builder `build_path_until` or by `build_pst_main`/`structureGraph`
— contains a `SEQ` node with exactly one child *except* the synthetic
loop body, which is always a `SEQ` holding exactly one synthetic `TASK`
inside a `LOOP` node; every other single-child sequence is collapsed. -/
theorem claim_C5_amended :
    (∀ (g : Graph) (fuel : Nat) (node : String) (stop : Option String)
        (stack : List String) (t : PNode),
      build_path_until g fuel node stop stack = some t → seqOK t = true) ∧
    (∀ (g : Graph) (fuel : Nat) (t : PNode),
      structureGraph g fuel = some t → seqOK t = true) := by
  constructor
  · intro g fuel node stop stack t h
    exact bpuGo_seqOK g fuel node stop stack (some node) [] [] rfl t h
  · intro g fuel t h
    unfold structureGraph at h
    cases hs : chooseStart g with
    | none => rw [hs] at h; cases h
    | some s =>
      rw [hs] at h
      exact bpmGo_seqOK g fuel [s] [] [] rfl t h

/-- C5 (witness): the amended invariant evaluated on the back-edge
scenario graph: its tree, which does contain the synthetic one-task loop
body, satisfies the invariant. -/
theorem claim_C5_witness : seqOK tBack = true :=
  claim_C5_amended.2 gBack 100 tBack (by decide)

theorem notMem_of_allS1 (st : List String) (z : String)
    (h : ∀ x ∈ st, x = "S1") (hz : z ≠ "S1") : (z ∈ st) = False :=
  eq_false (fun hmem => hz (h z hmem))

theorem edge_hits_gDiv_a (st : List String) (h : ∀ x ∈ st, x = "S1") :
    edge_hits_active_split gDiv "a" st = none := by
  unfold edge_hits_active_split
  rw [show gDiv.succ "a" = ["S2"] from rfl]
  simp [List.find?_cons, notMem_of_allS1 st "S2" h (by decide)]

theorem edge_hits_gDiv_S2 (st : List String) (h : ∀ x ∈ st, x = "S1") :
    edge_hits_active_split gDiv "S2" st = none := by
  unfold edge_hits_active_split
  rw [show gDiv.succ "S2" = ["b1", "b2"] from rfl]
  simp [List.find?_cons, notMem_of_allS1 st "b1" h (by decide),
    notMem_of_allS1 st "b2" h (by decide)]

theorem edge_hits_gDiv_S1 (st : List String) (h : ∀ x ∈ st, x = "S1") :
    edge_hits_active_split gDiv "S1" st = none := by
  unfold edge_hits_active_split
  rw [show gDiv.succ "S1" = ["a", "e"] from rfl]
  simp [List.find?_cons, notMem_of_allS1 st "a" h (by decide),
    notMem_of_allS1 st "e" h (by decide)]

/-- On `gDiv`, the branch builder started at `a` under any stack of active
`S1` copies runs out of any amount of fuel. -/
theorem bpuGo_gDiv_none :
    ∀ (fuel : Nat) (st : List String), (∀ x ∈ st, x = "S1") →
      bpuGo gDiv fuel "a" none st (some "a") [] [] = none := by
  intro fuel
  induction fuel using Nat.strong_induction_on with
  | _ fuel ih =>
    intro st hst
    rcases fuel with - | f1
    · rfl
    simp only [bpuGo, edge_hits_gDiv_a st hst,
      show ((none : Option String) == some "a") = false from rfl,
      show ([] : List String).contains "a" = false from rfl,
      show List.lookup "a" gDiv.tasks = some none from rfl,
      show gDiv.succ "a" = ["S2"] from rfl]
    rcases f1 with - | f2
    · rfl
    simp only [bpuGo, edge_hits_gDiv_S2 st hst,
      show ((none : Option String) == some "S2") = false from rfl,
      show ["a"].contains "S2" = false from rfl,
      show List.lookup "S2" gDiv.tasks = none from rfl,
      show List.lookup "S2" gDiv.events = none from rfl,
      show List.lookup "S2" gDiv.gateways = some none from rfl,
      show gDiv.outdeg "S2" = 2 from rfl,
      show find_join gDiv "S2" (gwKind gDiv "S2") = some "j" by decide,
      show gDiv.succ "S2" = ["b1", "b2"] from rfl,
      show ((some "j" : Option String) == some "S2") = false from rfl]
    rw [if_pos (by omega : (2 : Nat) > 1)]
    cases hm : (["b1", "b2"].mapM (fun o =>
        if (o == "S2") = true then some nullNode
        else bpuGo gDiv f2 o (some "j") (st ++ ["S2"]) (some o) [] [])) with
    | none => rfl
    | some kids =>
      simp only [Bool.false_eq_true, if_false,
        show (gDiv.succ "j").head? = some "S1" from rfl]
      rcases f2 with - | f3
      · rfl
      simp only [bpuGo, edge_hits_gDiv_S1 st hst,
        show ((none : Option String) == some "S1") = false from rfl,
        show ["S2", "a"].contains "S1" = false from rfl,
        show List.lookup "S1" gDiv.tasks = none from rfl,
        show List.lookup "S1" gDiv.events = none from rfl,
        show List.lookup "S1" gDiv.gateways = some none from rfl,
        show gDiv.outdeg "S1" = 2 from rfl,
        show find_join gDiv "S1" (gwKind gDiv "S1") = none by decide,
        show gDiv.succ "S1" = ["a", "e"] from rfl,
        show ((none : Option String) == some "S1") = false from rfl]
      rw [if_pos (by omega : (2 : Nat) > 1)]
      have hrec : bpuGo gDiv f3 "a" none (st ++ ["S1"]) (some "a") [] [] =
          none := by
        refine ih f3 (by omega) (st ++ ["S1"]) ?_
        intro x hx
        rcases List.mem_append.1 hx with hx | hx
        · exact hst x hx
        · simpa using hx
      have hmapnone : (["a", "e"].mapM (fun o =>
          if (o == "S1") = true then some nullNode
          else bpuGo gDiv f3 o none (st ++ ["S1"]) (some o) [] [])) = none := by
        rw [List.mapM_cons]
        simp only [show (("a" : String) == "S1") = false from rfl,
          Bool.false_eq_true, if_false, hrec]
        rfl
      rw [hmapnone]
      rfl


/-- On `gDiv`, the whole backbone runs out of any amount of fuel: the
gateway `S1` has no detectable join, and its first branch diverges. -/
theorem bpmGo_gDiv_none (f : Nat) : bpmGo gDiv f ["Start"] [] [] = none := by
  rcases f with - | f1
  · rfl
  simp only [bpmGo,
    show ([] : List String).contains "Start" = false from rfl,
    show List.lookup "Start" gDiv.tasks = none from rfl,
    show List.lookup "Start" gDiv.events = some none from rfl,
    show (gDiv.succ "Start").head? = some "S1" from rfl]
  rcases f1 with - | f2
  · rfl
  simp only [bpmGo,
    show ["Start"].contains "S1" = false from rfl,
    show List.lookup "S1" gDiv.tasks = none from rfl,
    show List.lookup "S1" gDiv.events = none from rfl,
    show List.lookup "S1" gDiv.gateways = some none from rfl,
    show gDiv.outdeg "S1" = 2 from rfl,
    show find_join gDiv "S1" (gwKind gDiv "S1") = none by decide,
    show gDiv.succ "S1" = ["a", "e"] from rfl]
  rw [if_pos (by omega : (2 : Nat) > 1)]
  have hmap : (["a", "e"].mapM (fun o =>
      bpuGo gDiv f2 o none ["S1"] (some o) [] [])) = none := by
    rw [List.mapM_cons]
    rw [bpuGo_gDiv_none f2 ["S1"] (by intro x hx; simpa using hx)]
    rfl
  rw [hmap]
  rfl

/-- Termination of graph structuring on a graph: some fuel makes the
fuel-instrumented engine return a tree (equivalently, the source engine's
walk and recursion are finite on this graph). -/
def Terminates (g : Graph) : Prop :=
  ∃ fuel t, structureGraph g fuel = some t

/-- C7 (counterexample): the structuring transformation does *not*
terminate on every finite input graph: on `gDiv` (where the inner split's
join leads back to the outer split `S1`), the branch builder re-expands
`S1` with `S1` already on the active-split stack, forever — no amount of
fuel produces a result. The source recursion is unbounded (a Python
`RecursionError`). -/
theorem claim_C7_counterexample : ¬ Terminates gDiv := by
  rintro ⟨fuel, t, h⟩
  unfold structureGraph at h
  rw [show chooseStart gDiv = some "Start" by decide] at h
  have h' : build_pst_main gDiv fuel "Start" = some t := h
  unfold build_pst_main at h'
  rw [bpmGo_gDiv_none fuel] at h'
  cases h'

/-- C7 (amended): the already-visited cycle guards bound each single
walk, and the structuring transformation terminates on the specification's
scenario graphs (the round-trip and the loop scenario), but not on every
finite graph: the mutual recursion between the builders is unbounded when
a detected join's successor re-enters an active split (see the
counterexample). -/
theorem claim_C7_amended : Terminates gRound ∧ Terminates gLoop :=
  ⟨⟨100, tRound, by decide⟩, ⟨100, tLoop, by decide⟩⟩

/-- C8 (counterexample): the malformed input `SEQ(TASK(a),xyz)` (the
child `xyz` matches no grammar production) is not rejected: the parser
silently drops the unparsable child and returns the partial tree
`SEQ[TASK(a)]`. -/
theorem claim_C8_counterexample :
    parse_pst_text ("SEQ(TASK(a),xyz)".toList) =
      some (.mk "SEQ" none [.mk "TASK" (some "a") []]) ∧
    parse_pst_text ("SEQ(TASK(a),xyz)".toList) ≠ none := by decide

/-- C8 (amended): only a *top-level* mismatch fails fast: when the
stripped input does not match the anchored `NAME(...)` pattern the parser
returns `none` to the caller; malformed children inside an interior node
are silently dropped instead (see the counterexample), so a partial
result can be returned for malformed input. -/
theorem claim_C8_amended (s : List Char) (h : pyMatch (pstrip s) = none) :
    parse_pst_text s = none := by
  unfold parse_pst_text
  rw [parseBlock, h]

/-- C8 (witness): the input `garbage` has no parenthesis, fails the
top-level pattern, and is rejected. -/
theorem claim_C8_witness : parse_pst_text ("garbage".toList) = none :=
  claim_C8_amended _ (by decide)

/-- C9 (witness): the amended characterization instantiated at the
round-trip graph's gateway split `GW` (join `J`). -/
theorem claim_C9_witness :
    bpmGo gRound 50 ["GW"] ["A", "Start"]
        [.mk "EVENT" (some "Start") [], .mk "TASK" (some "A") []] =
      match (gRound.succ "GW").mapM (fun o =>
          if o == "J" then some nullNode
          else bpuGo gRound 49 o (some "J") ["GW"] (some o) [] []) with
      | none => none
      | some kids =>
        bpmGo gRound 49 ([] ++ ((gRound.succ "J").head?.toList))
          ("GW" :: ["A", "Start"])
          ([.mk "EVENT" (some "Start") [], .mk "TASK" (some "A") []] ++
            [.mk (gwKind gRound "GW") (some (labelOf "GW" none)) kids]) :=
  ((claim_C9_amended gRound 49 "GW" [] ["A", "Start"]
      [.mk "EVENT" (some "Start") [], .mk "TASK" (some "A") []]
      (by decide) (by decide)).2.1 none (by decide) (by decide) (by decide)).1
    "J" (by decide)

/-- Labels that survive the textual notation: non-empty, free of
parentheses, with no surrounding whitespace to be stripped and no trailing
comma to be removed. -/
def goodLabel (s : String) : Bool :=
  !s.toList.isEmpty &&
    s.toList.all (fun c => !(c == '(') && !(c == ')')) &&
    (pstrip s.toList == s.toList) && (rstripComma s.toList == s.toList)

mutual

/-- The trees on which serialization and parsing round-trip: leaves
(`TASK`/`EVENT`/`NULL`) carry a good label and no children, interior nodes
(`SEQ`/`XOR`/`AND`/`LOOP`) carry no label; `LOOPBACK` (whose label the
parser drops) and unknown tags are excluded. -/
def goodT : PNode → Bool
  | .mk nt v cs =>
    if nt == "TASK" || nt == "EVENT" || nt == "NULL" then
      (match v with
       | some lbl => goodLabel lbl
       | none => false) && cs.isEmpty
    else if nt == "SEQ" || nt == "XOR" || nt == "AND" || nt == "LOOP" then
      (v == none) && goodTList cs
    else false

def goodTList : List PNode → Bool
  | [] => true
  | c :: cs => goodT c && goodTList cs

end

theorem strmk_toList : ∀ s : String, String.mk s.toList = s
  | ⟨_⟩ => rfl

theorem dropWhile_replicate_space (n : Nat) (b : List Char) :
    List.dropWhile isPySpace (List.replicate n ' ' ++ b) =
      List.dropWhile isPySpace b := by
  induction n with
  | zero => rfl
  | succ m ih => rw [List.replicate_succ, List.cons_append, List.dropWhile_cons_of_pos (by rfl), ih]

theorem dropWhile_cons_neg (c : Char) (l : List Char)
    (h : isPySpace c = false) :
    List.dropWhile isPySpace (c :: l) = c :: l :=
  List.dropWhile_cons_of_neg (by rw [h]; exact Bool.false_ne_true)

theorem rstrip_noop (X : List Char) (c : Char) (h : isPySpace c = false) :
    ((X ++ [c]).reverse.dropWhile isPySpace).reverse = X ++ [c] := by
  rw [List.reverse_append, List.reverse_singleton, List.singleton_append,
    dropWhile_cons_neg c X.reverse h]
  rw [List.reverse_cons, List.reverse_reverse]

/-- Stripping an indented chunk that starts with a non-space character
and ends with a closing parenthesis removes exactly the indentation. -/
theorem pstrip_indent_core (n : Nat) (c0 : Char) (rest : List Char)
    (h1 : isPySpace c0 = false) (X : List Char)
    (h2 : c0 :: rest = X ++ [')']) :
    pstrip (List.replicate n ' ' ++ (c0 :: rest)) = c0 :: rest := by
  unfold pstrip
  rw [dropWhile_replicate_space, dropWhile_cons_neg c0 rest h1, h2,
    rstrip_noop X ')' (by rfl)]

/-- Depth contribution of one character in the child-splitting scan. -/
def delta (c : Char) : Int :=
  if c == '(' then 1 else if c == ')' then -1 else 0

/-- Net parenthesis depth of a chunk. -/
def netDepth : List Char → Int
  | [] => 0
  | c :: rest => delta c + netDepth rest

/-- A chunk is safe to scan from depth `d` when no comma in it occurs at
absolute depth zero. -/
def scanSafe : List Char → Int → Bool
  | [], _ => true
  | c :: rest, d =>
    if c == '(' then scanSafe rest (d + 1)
    else if c == ')' then scanSafe rest (d - 1)
    else if c == ',' then !(d == 0) && scanSafe rest d
    else scanSafe rest d

theorem netDepth_append (a b : List Char) :
    netDepth (a ++ b) = netDepth a + netDepth b := by
  induction a with
  | nil => rw [List.nil_append, netDepth, Int.zero_add]
  | cons c ch ih =>
    rw [List.cons_append, netDepth, netDepth, ih, Int.add_assoc]

theorem scanSafe_append (a b : List Char) :
    ∀ d : Int, scanSafe (a ++ b) d =
      (scanSafe a d && scanSafe b (d + netDepth a)) := by
  induction a with
  | nil =>
    intro d
    rw [List.nil_append, scanSafe, Bool.true_and, netDepth, Int.add_zero]
  | cons c ch ih =>
    intro d
    rw [List.cons_append, scanSafe, scanSafe, netDepth]
    by_cases h1 : (c == '(') = true
    · rw [if_pos h1, if_pos h1, ih (d + 1),
        show delta c = 1 by unfold delta; rw [if_pos h1],
        show d + (1 + netDepth ch) = d + 1 + netDepth ch by omega]
    rw [if_neg h1, if_neg h1]
    by_cases h2 : (c == ')') = true
    · rw [if_pos h2, if_pos h2, ih (d - 1),
        show delta c = -1 by unfold delta; rw [if_neg h1, if_pos h2],
        show d + (-1 + netDepth ch) = d - 1 + netDepth ch by omega]
    rw [if_neg h2, if_neg h2]
    have hdc : delta c = 0 := by unfold delta; rw [if_neg h1, if_neg h2]
    by_cases h3 : (c == ',') = true
    · rw [if_pos h3, if_pos h3, ih d, Bool.and_assoc, hdc,
        show d + (0 + netDepth ch) = d + netDepth ch by omega]
    · rw [if_neg h3, if_neg h3, ih d, hdc,
        show d + (0 + netDepth ch) = d + netDepth ch by omega]

/-- Scanning a safe chunk never splits: the chunk migrates into the
buffer and the depth advances by its net depth. -/
theorem scanAux_chunk :
    ∀ (chunk : List Char) (d : Int), scanSafe chunk d = true →
      ∀ (rest buff : List Char) (acc : List (List Char)),
        scanAux (chunk ++ rest) d buff acc =
          scanAux rest (d + netDepth chunk) (buff ++ chunk) acc := by
  intro chunk
  induction chunk with
  | nil =>
    intro d _ rest buff acc
    rw [List.nil_append, netDepth, Int.add_zero, List.append_nil]
  | cons c ch ih =>
    intro d hsafe rest buff acc
    rw [List.cons_append, scanAux]
    rw [scanSafe] at hsafe
    by_cases h1 : (c == '(') = true
    · rw [if_pos h1] at hsafe ⊢
      rw [ih (d + 1) hsafe rest (buff ++ [c]) acc, netDepth,
        show delta c = 1 by unfold delta; rw [if_pos h1],
        show d + (1 + netDepth ch) = d + 1 + netDepth ch by omega,
        List.append_assoc, List.singleton_append]
    rw [if_neg h1] at hsafe ⊢
    by_cases h2 : (c == ')') = true
    · rw [if_pos h2] at hsafe ⊢
      rw [ih (d - 1) hsafe rest (buff ++ [c]) acc, netDepth,
        show delta c = -1 by unfold delta; rw [if_neg h1, if_pos h2],
        show d + (-1 + netDepth ch) = d - 1 + netDepth ch by omega,
        List.append_assoc, List.singleton_append]
    rw [if_neg h2] at hsafe ⊢
    have hdc : delta c = 0 := by unfold delta; rw [if_neg h1, if_neg h2]
    by_cases h3 : (c == ',') = true
    · rw [if_pos h3] at hsafe
      rw [Bool.and_eq_true] at hsafe
      have hd0 : (d == 0) = false := by
        cases hdd : (d == 0)
        · rfl
        · rw [hdd] at hsafe; cases hsafe.1
      have hcond : (c == ',' && (d == 0)) = false := by
        rw [h3, hd0, Bool.true_and]
      rw [hcond]
      simp only [Bool.false_eq_true, if_false]
      rw [ih d hsafe.2 rest (buff ++ [c]) acc, netDepth, hdc,
        show d + (0 + netDepth ch) = d + netDepth ch by omega,
        List.append_assoc, List.singleton_append]
    · rw [if_neg h3] at hsafe
      have hcond : (c == ',' && d == 0) = false := by
        cases hc : (c == ',')
        · rfl
        · exact absurd hc h3
      rw [hcond]
      simp only [Bool.false_eq_true, if_false]
      rw [ih d hsafe rest (buff ++ [c]) acc, netDepth, hdc,
        show d + (0 + netDepth ch) = d + netDepth ch by omega,
        List.append_assoc, List.singleton_append]

theorem scanSafe_open (X : List Char) (d : Int) :
    scanSafe ('(' :: X) d = scanSafe X (d + 1) := by
  rw [scanSafe]; rfl

theorem scanSafe_nl (X : List Char) (d : Int) :
    scanSafe ('\n' :: X) d = scanSafe X d := by
  rw [scanSafe]; rfl

theorem netDepth_open (X : List Char) : netDepth ('(' :: X) = 1 + netDepth X := by
  rw [netDepth]; rfl

theorem netDepth_nl (X : List Char) : netDepth ('\n' :: X) = netDepth X := by
  rw [netDepth]
  rw [show delta '\n' = 0 from rfl, Int.zero_add]

theorem netDepth_noParen (l : List Char)
    (h : ∀ c ∈ l, (c == '(') = false ∧ (c == ')') = false) :
    netDepth l = 0 := by
  induction l with
  | nil => rfl
  | cons c ch ih =>
    have hc := h c (List.mem_cons_self c ch)
    rw [netDepth, ih (fun x hx => h x (List.mem_cons_of_mem c hx)),
      show delta c = 0 by unfold delta; rw [hc.1, hc.2]; rfl]
    rfl

theorem scanSafe_noParen (l : List Char)
    (h : ∀ c ∈ l, (c == '(') = false ∧ (c == ')') = false) :
    ∀ d : Int, (d == 0) = false → scanSafe l d = true := by
  induction l with
  | nil => intro d _; rfl
  | cons c ch ih =>
    intro d hd
    have hc := h c (List.mem_cons_self c ch)
    rw [scanSafe, hc.1, hc.2]
    simp only [Bool.false_eq_true, if_false]
    by_cases h3 : (c == ',') = true
    · rw [if_pos h3, hd, Bool.not_false, Bool.true_and]
      exact ih (fun x hx => h x (List.mem_cons_of_mem c hx)) d hd
    · rw [if_neg h3]
      exact ih (fun x hx => h x (List.mem_cons_of_mem c hx)) d hd

theorem scanSafe_noSpecial (l : List Char)
    (h : ∀ c ∈ l, (c == '(') = false ∧ (c == ')') = false ∧
      (c == ',') = false) :
    ∀ d : Int, scanSafe l d = true := by
  induction l with
  | nil => intro d; rfl
  | cons c ch ih =>
    intro d
    have hc := h c (List.mem_cons_self c ch)
    rw [scanSafe, hc.1, hc.2.1, hc.2.2]
    simp only [Bool.false_eq_true, if_false]
    exact ih (fun x hx => h x (List.mem_cons_of_mem c hx)) d

theorem replicate_space_noSpecial (n : Nat) :
    ∀ c ∈ List.replicate n ' ', (c == '(') = false ∧ (c == ')') = false ∧
      (c == ',') = false := by
  intro c hc
  rw [List.eq_of_mem_replicate hc]
  exact ⟨rfl, rfl, rfl⟩

theorem goodLabel_noParen (lbl : String) (h : goodLabel lbl = true) :
    ∀ c ∈ lbl.toList, (c == '(') = false ∧ (c == ')') = false := by
  unfold goodLabel at h
  simp only [Bool.and_eq_true] at h
  intro c hc
  have := (List.all_eq_true.1 h.1.1.2) c hc
  simp only [Bool.and_eq_true, Bool.not_eq_true'] at this
  exact this

mutual

theorem repr_scan_good : ∀ (t : PNode), goodT t = true →
    ∀ (level : Nat) (d : Int), 0 ≤ d →
      scanSafe (reprN level t) d = true ∧ netDepth (reprN level t) = 0
  | .mk nt v cs, h, level, d, hd => by
    simp only [goodT] at h
    by_cases hleaf : (nt == "TASK" || nt == "EVENT" || nt == "NULL") = true
    · rw [if_pos hleaf, Bool.and_eq_true] at h
      obtain ⟨hv, hcs⟩ := h
      cases v with
      | none => cases hv
      | some lbl =>
        have hvl : goodLabel lbl = true := hv
        have hlbl := goodLabel_noParen lbl hvl
        have hnt : nt = "TASK" ∨ nt = "EVENT" ∨ nt = "NULL" := by
          simpa [or_assoc] using hleaf
        have htag : ∀ c ∈ nt.toList, (c == '(') = false ∧ (c == ')') = false ∧
            (c == ',') = false := by
          rcases hnt with rfl | rfl | rfl <;>
            · intro c hc
              fin_cases hc <;> exact ⟨rfl, rfl, rfl⟩
        have hcond : (nt == "TASK" || nt == "EVENT" || nt == "NULL" ||
            nt == "LOOPBACK") = true := by
          rw [hleaf, Bool.true_or]
        have hnet1 : netDepth (List.replicate (2 * level) ' ') = 0 :=
          netDepth_noParen _ (fun c hc => ⟨(replicate_space_noSpecial _ c hc).1,
            (replicate_space_noSpecial _ c hc).2.1⟩)
        have hnet2 : netDepth nt.toList = 0 :=
          netDepth_noParen _ (fun c hc => ⟨(htag c hc).1, (htag c hc).2.1⟩)
        have hnet3 : netDepth (pyShow (some lbl)) = 0 :=
          netDepth_noParen _ hlbl
        have h1 : ∀ dd : Int, scanSafe (List.replicate (2 * level) ' ') dd = true :=
          scanSafe_noSpecial _ (replicate_space_noSpecial _)
        have h2 : ∀ dd : Int, scanSafe nt.toList dd = true :=
          scanSafe_noSpecial _ htag
        have h3 : scanSafe (pyShow (some lbl)) (d + 1) = true := by
          refine scanSafe_noParen _ hlbl _ ?_
          rw [beq_eq_false_iff_ne]
          omega
        have h4 : ∀ dd : Int, scanSafe [')'] dd = true := by
          intro dd
          rw [scanSafe]
          rfl
        rw [reprN, if_pos hcond]
        constructor
        · simp only [scanSafe_append, scanSafe_open, netDepth_append,
            hnet1, hnet2, hnet3, Int.add_zero, Int.zero_add]
          simp [h1, h2, h3, h4]
          exact h2 d
        · simp only [netDepth_append, netDepth_open, netDepth_nl,
            hnet1, hnet2, hnet3]
          decide
    · rw [if_neg hleaf] at h
      by_cases hint : (nt == "SEQ" || nt == "XOR" || nt == "AND" ||
          nt == "LOOP") = true
      · rw [if_pos hint, Bool.and_eq_true] at h
        obtain ⟨-, hcs⟩ := h
        have hkids := repr_scan_good_list cs hcs (level + 1) (d + 1)
          (by omega)
        have hnt : nt = "SEQ" ∨ nt = "XOR" ∨ nt = "AND" ∨ nt = "LOOP" := by
          simpa [or_assoc] using hint
        have htag : ∀ c ∈ nt.toList, (c == '(') = false ∧ (c == ')') = false ∧
            (c == ',') = false := by
          rcases hnt with rfl | rfl | rfl | rfl <;>
            · intro c hc
              fin_cases hc <;> exact ⟨rfl, rfl, rfl⟩
        have hcondF : (nt == "TASK" || nt == "EVENT" || nt == "NULL" ||
            nt == "LOOPBACK") = false := by
          rcases hnt with rfl | rfl | rfl | rfl <;> rfl
        have hnind : netDepth (List.replicate (2 * level) ' ') = 0 :=
          netDepth_noParen _ (fun c hc => ⟨(replicate_space_noSpecial _ c hc).1,
            (replicate_space_noSpecial _ c hc).2.1⟩)
        have hsind : ∀ dd : Int, scanSafe (List.replicate (2 * level) ' ') dd = true :=
          fun dd => scanSafe_noSpecial _ (replicate_space_noSpecial _) dd
        have hntag : netDepth nt.toList = 0 :=
          netDepth_noParen _ (fun c hc => ⟨(htag c hc).1, (htag c hc).2.1⟩)
        have h2 : ∀ dd : Int, scanSafe nt.toList dd = true :=
          scanSafe_noSpecial _ htag
        have h4 : ∀ dd : Int, scanSafe [')'] dd = true := by
          intro dd
          rw [scanSafe]
          rfl
        rw [reprN, if_neg (by rw [hcondF]; exact Bool.false_ne_true)]
        constructor
        · simp only [List.cons_append, List.nil_append, scanSafe_append,
            scanSafe_open, scanSafe_nl, netDepth_append, netDepth_open,
            netDepth_nl, hnind, hntag, hkids.2, Int.add_zero, Int.zero_add]
          simp [hsind, h2, h4, hkids.1]
          refine ⟨⟨h2 d, rfl⟩, ?_⟩
          rw [show netDepth ([] : List Char) = 0 from rfl, Int.add_zero]
          exact hkids.1
        · simp only [List.cons_append, List.nil_append, netDepth_append,
            netDepth_open, netDepth_nl, hnind, hntag, hkids.2]
          decide
      · rw [if_neg hint] at h
        cases h

theorem repr_scan_good_list : ∀ (cs : List PNode), goodTList cs = true →
    ∀ (level : Nat) (d : Int), 1 ≤ d →
      scanSafe (reprChildren level cs) d = true ∧
        netDepth (reprChildren level cs) = 0
  | [], _, level, d, _ => ⟨rfl, rfl⟩
  | c :: cs, h, level, d, hd => by
    rw [goodTList, Bool.and_eq_true] at h
    have hc := repr_scan_good c h.1 level d (by omega)
    have hcs := repr_scan_good_list cs h.2 level d hd
    rw [reprChildren]
    constructor
    · rw [scanSafe_append, hc.1, hc.2, Bool.true_and, Int.add_zero,
        show ([',', '\n'] ++ reprChildren level cs) =
          ',' :: '\n' :: reprChildren level cs from rfl,
        scanSafe, if_neg (by decide), if_neg (by decide), if_pos (by decide),
        show ((d : Int) == 0) = false by rw [beq_eq_false_iff_ne]; omega,
        Bool.not_false, Bool.true_and, scanSafe_nl]
      exact hcs.1
    · rw [netDepth_append, hc.2,
        show ([',', '\n'] ++ reprChildren level cs) =
          ',' :: '\n' :: reprChildren level cs from rfl,
        netDepth, netDepth_nl, hcs.2,
        show delta ',' = 0 from rfl]
      rfl

end

theorem space_not_special (c : Char) (h : isPySpace c = true) :
    (c == '(') = false ∧ (c == ')') = false ∧ (c == ',') = false := by
  unfold isPySpace at h
  simp only [Bool.or_eq_true, beq_iff_eq, or_assoc] at h
  rcases h with rfl | rfl | rfl | rfl | rfl | rfl <;> exact ⟨rfl, rfl, rfl⟩

theorem dropWhile_space_nil (ws : List Char)
    (h : ∀ c ∈ ws, isPySpace c = true) :
    List.dropWhile isPySpace ws = [] :=
  List.dropWhile_eq_nil_iff.2 (fun c hc => h c hc)

theorem pstrip_all_space (ws : List Char)
    (h : ∀ c ∈ ws, isPySpace c = true) : pstrip ws = [] := by
  unfold pstrip
  rw [dropWhile_space_nil ws h]
  rfl

theorem pstrip_ws_append (ws l : List Char)
    (h : ∀ c ∈ ws, isPySpace c = true) : pstrip (ws ++ l) = pstrip l := by
  unfold pstrip
  rw [List.dropWhile_append, dropWhile_space_nil ws h]
  rfl

theorem pstrip_append_ws (l ws : List Char)
    (h : ∀ c ∈ ws, isPySpace c = true) : pstrip (l ++ ws) = pstrip l := by
  unfold pstrip
  rw [List.dropWhile_append]
  cases hdl : List.dropWhile isPySpace l with
  | nil =>
    rw [List.isEmpty_nil, if_pos rfl, dropWhile_space_nil ws h]
  | cons c rest =>
    rw [List.isEmpty_cons, if_neg (by exact Bool.false_ne_true),
      List.reverse_append, List.dropWhile_append,
      dropWhile_space_nil ws.reverse (fun c hc => h c (List.mem_reverse.1 hc)),
      List.isEmpty_nil, if_pos rfl]

theorem scanAux_buff_ws (x : List Char) :
    ∀ (d : Int) (ws b : List Char) (acc : List (List Char)),
      (∀ c ∈ ws, isPySpace c = true) →
      scanAux x d (ws ++ b) acc = scanAux x d b acc := by
  induction x with
  | nil =>
    intro d ws b acc hws
    rw [scanAux, scanAux, pstrip_ws_append ws b hws]
  | cons c rest ih =>
    intro d ws b acc hws
    rw [scanAux, scanAux]
    by_cases h1 : (c == '(') = true
    · rw [if_pos h1, if_pos h1, List.append_assoc]
      exact ih (d + 1) ws (b ++ [c]) acc hws
    rw [if_neg h1, if_neg h1]
    by_cases h2 : (c == ')') = true
    · rw [if_pos h2, if_pos h2, List.append_assoc]
      exact ih (d - 1) ws (b ++ [c]) acc hws
    rw [if_neg h2, if_neg h2]
    by_cases h3 : (c == ',' && (d == 0)) = true
    · rw [if_pos h3, if_pos h3, pstrip_ws_append ws b hws]
    · rw [if_neg h3, if_neg h3, List.append_assoc]
      exact ih d ws (b ++ [c]) acc hws

theorem scanAux_ws_only (ws : List Char)
    (hws : ∀ c ∈ ws, isPySpace c = true) :
    ∀ (d : Int) (buff : List Char) (acc : List (List Char)),
      scanAux ws d buff acc =
        if (pstrip buff).isEmpty = true then acc else acc ++ [pstrip buff] := by
  induction ws with
  | nil => intro d buff acc; rw [scanAux]
  | cons c rest ih =>
    intro d buff acc
    have hc := space_not_special c (hws c (List.mem_cons_self c rest))
    have hrest : ∀ x ∈ rest, isPySpace x = true :=
      fun x hx => hws x (List.mem_cons_of_mem c hx)
    rw [scanAux, hc.1, hc.2.1]
    simp only [Bool.false_eq_true, if_false]
    rw [show (c == ',' && (d == 0)) = (false && (d == 0)) by rw [hc.2.2],
      Bool.false_and]
    simp only [Bool.false_eq_true, if_false]
    rw [ih hrest d (buff ++ [c]) acc,
      pstrip_append_ws buff [c] (by
        intro x hx
        rw [List.mem_singleton.1 hx]
        exact hws c (List.mem_cons_self c rest))]

theorem scanAux_append_ws (ws : List Char)
    (hws : ∀ c ∈ ws, isPySpace c = true) :
    ∀ (x : List Char) (d : Int) (buff : List Char) (acc : List (List Char)),
      scanAux (x ++ ws) d buff acc = scanAux x d buff acc := by
  intro x
  induction x with
  | nil =>
    intro d buff acc
    rw [List.nil_append, scanAux_ws_only ws hws d buff acc, scanAux]
  | cons c rest ih =>
    intro d buff acc
    rw [List.cons_append, scanAux, scanAux]
    by_cases h1 : (c == '(') = true
    · rw [if_pos h1, if_pos h1, ih]
    rw [if_neg h1, if_neg h1]
    by_cases h2 : (c == ')') = true
    · rw [if_pos h2, if_pos h2, ih]
    rw [if_neg h2, if_neg h2]
    by_cases h3 : (c == ',' && (d == 0)) = true
    · rw [if_pos h3, if_pos h3, ih]
    · rw [if_neg h3, if_neg h3, ih]

theorem takeWhile_space_mem (s : List Char) :
    ∀ c ∈ s.takeWhile isPySpace, isPySpace c = true :=
  fun _ hc => List.mem_takeWhile_imp hc

/-- The child-splitting scan ignores surrounding whitespace: scanning the
stripped text gives the same chunks. -/
theorem scanChildren_pstrip (s : List Char) :
    scanChildren (pstrip s) = scanChildren s := by
  have hdecomp : s = s.takeWhile isPySpace ++ s.dropWhile isPySpace :=
    (List.takeWhile_append_dropWhile isPySpace s).symm
  have hmid : s.dropWhile isPySpace =
      pstrip s ++ ((s.dropWhile isPySpace).reverse.takeWhile isPySpace).reverse := by
    unfold pstrip
    conv_lhs => rw [show s.dropWhile isPySpace =
      ((s.dropWhile isPySpace).reverse.takeWhile isPySpace ++
        (s.dropWhile isPySpace).reverse.dropWhile isPySpace).reverse by
        rw [List.takeWhile_append_dropWhile, List.reverse_reverse]]
    rw [List.reverse_append]
  unfold scanChildren
  conv_rhs => rw [hdecomp, hmid]
  rw [← List.append_assoc]
  rw [scanAux_append_ws _ (fun c hc =>
      List.mem_takeWhile_imp (List.mem_reverse.1 hc)) _ 0 [] []]
  rw [scanAux_chunk (s.takeWhile isPySpace) 0
    (scanSafe_noSpecial _ (fun c hc => space_not_special c
      (takeWhile_space_mem s c hc)) 0) (pstrip s) [] [],
    netDepth_noParen _ (fun c hc =>
      ⟨(space_not_special c (takeWhile_space_mem s c hc)).1,
       (space_not_special c (takeWhile_space_mem s c hc)).2.1⟩)]
  rw [List.nil_append]
  have := scanAux_buff_ws (pstrip s) (0 + 0) (s.takeWhile isPySpace) [] []
    (takeWhile_space_mem s)
  rw [List.append_nil] at this
  rw [this]
  rw [show (0 : Int) + 0 = 0 from rfl]

theorem reprN_ends (t : PNode) (level : Nat) :
    ∃ X, reprN level t = X ++ [')'] := by
  cases t with
  | mk nt v cs =>
    rw [reprN]
    by_cases hleaf :
        (nt == "TASK" || nt == "EVENT" || nt == "NULL" || nt == "LOOPBACK") = true
    · rw [if_pos hleaf]
      exact ⟨List.replicate (2 * level) ' ' ++ nt.toList ++ '(' :: pyShow v,
        by simp⟩
    · rw [if_neg hleaf]
      exact ⟨List.replicate (2 * level) ' ' ++ nt.toList ++ ['(', '\n'] ++
        (reprChildren (level + 1) cs ++ List.replicate (2 * level) ' '),
        by simp⟩

theorem pstrip_ends_close (l X : List Char) (h : l = X ++ [')']) :
    ∃ Y, pstrip l = Y ++ [')'] := by
  subst h
  unfold pstrip
  rw [List.dropWhile_append]
  cases hdl : List.dropWhile isPySpace X with
  | nil =>
    rw [List.isEmpty_nil, if_pos rfl]
    exact ⟨[], rfl⟩
  | cons c r =>
    rw [List.isEmpty_cons, if_neg Bool.false_ne_true]
    exact ⟨c :: r, rstrip_noop (c :: r) ')' rfl⟩

theorem pstrip_repr_ne_empty (t : PNode) (level : Nat) :
    (pstrip (reprN level t)).isEmpty = false := by
  obtain ⟨X, hX⟩ := reprN_ends t level
  obtain ⟨Y, hY⟩ := pstrip_ends_close _ X hX
  rw [hY]
  cases Y <;> rfl

/-- Scanning the printed children (with any trailing whitespace, starting
from a whitespace buffer) emits exactly the stripped child
representations, in order. -/
theorem scan_children : ∀ (cs : List PNode), goodTList cs = true →
    ∀ (level : Nat) (buffWS : List Char), (∀ c ∈ buffWS, isPySpace c = true) →
    ∀ (tailWS : List Char), (∀ c ∈ tailWS, isPySpace c = true) →
    ∀ (acc : List (List Char)),
      scanAux (reprChildren level cs ++ tailWS) 0 buffWS acc =
        acc ++ cs.map (fun c => pstrip (reprN level c)) := by
  intro cs
  induction cs with
  | nil =>
    intro _ level buffWS hbuff tailWS htail acc
    rw [reprChildren, List.nil_append,
      scanAux_ws_only tailWS htail 0 buffWS acc,
      pstrip_all_space buffWS hbuff, List.isEmpty_nil, if_pos rfl,
      List.map_nil, List.append_nil]
  | cons c1 cs' ih =>
    intro h level buffWS hbuff tailWS htail acc
    rw [goodTList, Bool.and_eq_true] at h
    rw [reprChildren, List.append_assoc]
    have hgood := repr_scan_good c1 h.1 level 0 (le_refl 0)
    rw [scanAux_chunk (reprN level c1) 0 hgood.1 _ buffWS acc, hgood.2,
      Int.add_zero]
    rw [List.append_assoc, List.cons_append, List.cons_append, List.nil_append]
    rw [scanAux, if_neg (by decide), if_neg (by decide), if_pos (by decide)]
    rw [pstrip_ws_append buffWS (reprN level c1) hbuff,
      pstrip_repr_ne_empty c1 level]
    simp only [Bool.false_eq_true, if_false]
    rw [scanAux, if_neg (by decide), if_neg (by decide), if_neg (by decide),
      List.nil_append]
    rw [ih h.2 level ['\n'] (by
        intro x hx
        rw [List.mem_singleton.1 hx]
        rfl) tailWS htail _]
    rw [List.map_cons, List.append_assoc, List.singleton_append]

theorem lastIdx_append_close : ∀ (xs : List Char),
    lastIdx ')' (xs ++ [')']) = some xs.length := by
  intro xs
  induction xs with
  | nil => rfl
  | cons x xs ih =>
    rw [List.cons_append, lastIdx, ih]
    rfl

theorem takeWhile_word_head : ∀ (w : List Char),
    (∀ c ∈ w, isWordChar c = true) → ∀ (X : List Char),
      (w ++ '(' :: X).takeWhile isWordChar = w := by
  intro w
  induction w with
  | nil =>
    intro _ X
    rw [List.nil_append]
    exact List.takeWhile_cons_of_neg (by decide)
  | cons c w' ih =>
    intro hw X
    rw [List.cons_append,
      List.takeWhile_cons_of_pos (hw c (List.mem_cons_self c w')),
      ih (fun x hx => hw x (List.mem_cons_of_mem c hx)) X]

/-- The parser regex on a well-formed block `WORD(BODY)`: it captures the
word and everything up to the last closing parenthesis. -/
theorem pyMatch_shape (c0 : Char) (tagrest : List Char)
    (hw : ∀ c ∈ c0 :: tagrest, isWordChar c = true) (body : List Char) :
    pyMatch ((c0 :: tagrest) ++ '(' :: (body ++ [')'])) =
      some (c0 :: tagrest, body) := by
  simp only [pyMatch]
  rw [takeWhile_word_head (c0 :: tagrest) hw (body ++ [')']),
    List.isEmpty_cons, if_neg Bool.false_ne_true, List.drop_left]
  simp only [lastIdx_append_close]
  rw [List.take_left]

theorem pyMatch_interior (c0 : Char) (tr : List Char)
    (hw : ∀ c ∈ c0 :: tr, isWordChar c = true) (kids ind : List Char) :
    pyMatch ((c0 :: tr) ++ ('(' :: '\n' :: (kids ++ (ind ++ [')'])))) =
      some (c0 :: tr, '\n' :: (kids ++ ind)) := by
  rw [show '\n' :: (kids ++ (ind ++ [')'])) = ('\n' :: (kids ++ ind)) ++ [')']
    by simp]
  exact pyMatch_shape c0 tr hw ('\n' :: (kids ++ ind))

theorem pstrip_leaf_arm (n : Nat) (c0 : Char) (tr body : List Char)
    (h0 : isPySpace c0 = false) :
    pstrip (List.replicate n ' ' ++ (c0 :: (tr ++ ('(' :: (body ++ [')']))))) =
      c0 :: (tr ++ ('(' :: (body ++ [')']))) :=
  pstrip_indent_core n c0 _ h0 (c0 :: (tr ++ '(' :: body)) (by simp)

theorem pstrip_interior_arm (n : Nat) (c0 : Char) (tr kids : List Char)
    (h0 : isPySpace c0 = false) :
    pstrip (List.replicate n ' ' ++
        (c0 :: (tr ++ ('(' :: '\n' :: (kids ++ (List.replicate n ' ' ++ [')'])))))) =
      c0 :: (tr ++ ('(' :: '\n' :: (kids ++ (List.replicate n ' ' ++ [')'])))) :=
  pstrip_indent_core n c0 _ h0
    (c0 :: (tr ++ '(' :: '\n' :: (kids ++ List.replicate n ' '))) (by simp)

theorem reprChildren_mem_length (level : Nat) :
    ∀ (cs : List PNode) (c : PNode), c ∈ cs →
      (reprN level c).length + 2 ≤ (reprChildren level cs).length := by
  intro cs
  induction cs with
  | nil => intro c hc; cases hc
  | cons c1 cs' ih =>
    intro c hc
    rw [reprChildren, List.length_append, List.length_append]
    have h2 : ([',', '\n'] : List Char).length = 2 := rfl
    rcases List.mem_cons.1 hc with rfl | hmem
    · omega
    · have := ih c hmem
      omega

theorem reprN_interior_length (level : Nat) (nt : String) (v : Option String)
    (cs : List PNode)
    (hleaf : (nt == "TASK" || nt == "EVENT" || nt == "NULL" ||
      nt == "LOOPBACK") = false) :
    (reprChildren (level + 1) cs).length + 3 ≤
      (reprN level (.mk nt v cs)).length := by
  rw [reprN, if_neg (by rw [hleaf]; exact Bool.false_ne_true)]
  simp only [List.length_append, List.length_cons, List.length_nil,
    List.length_replicate]
  omega

theorem filterMap_parse_all (f : Nat) :
    ∀ (cs : List PNode) (g0 : PNode → List Char),
      (∀ c ∈ cs, parseBlock f (g0 c) = some c) →
      (cs.map g0).filterMap (fun b => parseBlock f b) = cs := by
  intro cs
  induction cs with
  | nil => intro g0 _; rfl
  | cons c1 cs' ih =>
    intro g0 h
    simp only [List.map_cons, List.filterMap_cons,
      h c1 (List.mem_cons_self c1 cs')]
    rw [ih g0 (fun c hc => h c (List.mem_cons_of_mem c1 hc))]

mutual

/-- Parsing the stripped printed form of a good tree returns the tree,
given fuel above the text length. -/
theorem parse_reprN : ∀ (t : PNode), goodT t = true →
    ∀ (level f : Nat), (reprN level t).length < f →
      parseBlock f (pstrip (reprN level t)) = some t
  | .mk nt v cs, h, level, f, hf => by
    obtain ⟨f', rfl⟩ : ∃ f', f = f' + 1 := ⟨f - 1, by omega⟩
    simp only [goodT] at h
    by_cases hleaf : (nt == "TASK" || nt == "EVENT" || nt == "NULL") = true
    · rw [if_pos hleaf, Bool.and_eq_true] at h
      obtain ⟨hv, hcs⟩ := h
      cases v with
      | none => cases hv
      | some lbl =>
        have hvl : goodLabel lbl = true := hv
        have hcsnil : cs = [] := by
          cases cs with
          | nil => rfl
          | cons a l =>
            exact absurd hcs (by rw [List.isEmpty_cons]; exact Bool.false_ne_true)
        subst hcsnil
        have hnt : nt = "TASK" ∨ nt = "EVENT" ∨ nt = "NULL" := by
          simpa [or_assoc] using hleaf
        have hcond : (nt == "TASK" || nt == "EVENT" || nt == "NULL" ||
            nt == "LOOPBACK") = true := by
          rw [hleaf, Bool.true_or]
        have hword : ∀ c ∈ nt.toList, isWordChar c = true := by
          rcases hnt with rfl | rfl | rfl <;> decide
        obtain ⟨c0, tagrest, htag, hc0⟩ :
            ∃ c0 tagrest, nt.toList = c0 :: tagrest ∧ isPySpace c0 = false := by
          rcases hnt with rfl | rfl | rfl
          · exact ⟨'T', "ASK".toList, rfl, rfl⟩
          · exact ⟨'E', "VENT".toList, rfl, rfl⟩
          · exact ⟨'N', "ULL".toList, rfl, rfl⟩
        rw [htag] at hword
        unfold goodLabel at hvl
        simp only [Bool.and_eq_true] at hvl
        have hps : pstrip lbl.toList = lbl.toList := eq_of_beq hvl.1.2
        have hrs : rstripComma lbl.toList = lbl.toList := eq_of_beq hvl.2
        have hne : lbl.toList.isEmpty = false := by
          have h0 := hvl.1.1.1
          rwa [Bool.not_eq_true'] at h0
        rw [reprN, if_pos hcond, htag]
        simp only [List.append_assoc, List.cons_append]
        rw [pstrip_leaf_arm (2 * level) c0 tagrest (pyShow (some lbl)) hc0]
        have hpm := pyMatch_shape c0 tagrest hword (pyShow (some lbl))
        rw [List.cons_append] at hpm
        simp only [parseBlock, hpm]
        rw [← htag, strmk_toList, if_pos hleaf]
        simp only [pyShow]
        rw [hps, hrs, hne]
        simp only [Bool.false_eq_true, if_false]
        rw [strmk_toList lbl]
    · rw [if_neg hleaf] at h
      by_cases hint : (nt == "SEQ" || nt == "XOR" || nt == "AND" ||
          nt == "LOOP") = true
      · rw [if_pos hint, Bool.and_eq_true] at h
        obtain ⟨hv, hkids⟩ := h
        have hvnone : v = none := eq_of_beq hv
        subst hvnone
        have hnt : nt = "SEQ" ∨ nt = "XOR" ∨ nt = "AND" ∨ nt = "LOOP" := by
          simpa [or_assoc] using hint
        have hcondF : (nt == "TASK" || nt == "EVENT" || nt == "NULL" ||
            nt == "LOOPBACK") = false := by
          rcases hnt with rfl | rfl | rfl | rfl <;> rfl
        have hleafF : (nt == "TASK" || nt == "EVENT" || nt == "NULL") = false := by
          rcases hnt with rfl | rfl | rfl | rfl <;> rfl
        have hword : ∀ c ∈ nt.toList, isWordChar c = true := by
          rcases hnt with rfl | rfl | rfl | rfl <;> decide
        obtain ⟨c0, tagrest, htag, hc0⟩ :
            ∃ c0 tagrest, nt.toList = c0 :: tagrest ∧ isPySpace c0 = false := by
          rcases hnt with rfl | rfl | rfl | rfl
          · exact ⟨'S', "EQ".toList, rfl, rfl⟩
          · exact ⟨'X', "OR".toList, rfl, rfl⟩
          · exact ⟨'A', "ND".toList, rfl, rfl⟩
          · exact ⟨'L', "OOP".toList, rfl, rfl⟩
        rw [htag] at hword
        have hlen : ∀ c ∈ cs, (reprN (level + 1) c).length < f' := by
          intro c hc
          have h1 := reprChildren_mem_length (level + 1) cs c hc
          have h2 := reprN_interior_length level nt none cs hcondF
          omega
        have hchild : ∀ c ∈ cs,
            parseBlock f' (pstrip (reprN (level + 1) c)) = some c :=
          fun c hc => parse_reprN_list cs hkids c hc (level + 1) f' (hlen c hc)
        rw [reprN, if_neg (by rw [hcondF]; exact Bool.false_ne_true)]
        simp only [List.append_assoc, List.cons_append, List.nil_append]
        rw [htag, List.cons_append]
        rw [pstrip_interior_arm (2 * level) c0 tagrest
          (reprChildren (level + 1) cs) hc0]
        have hpm := pyMatch_interior c0 tagrest hword
          (reprChildren (level + 1) cs) (List.replicate (2 * level) ' ')
        rw [List.cons_append] at hpm
        simp only [parseBlock, hpm]
        rw [← htag, strmk_toList]
        rw [if_neg (by rw [hleafF]; exact Bool.false_ne_true)]
        rw [scanChildren_pstrip, scanChildren]
        rw [scanAux, if_neg (by decide), if_neg (by decide), if_neg (by decide),
          List.nil_append]
        rw [scan_children cs hkids (level + 1) ['\n'] (by decide)
          (List.replicate (2 * level) ' ')
          (fun c hc => by rw [List.eq_of_mem_replicate hc]; rfl) []]
        rw [List.nil_append]
        rw [filterMap_parse_all f' cs
          (fun c => pstrip (reprN (level + 1) c)) hchild]
      · rw [if_neg hint] at h
        cases h

theorem parse_reprN_list : ∀ (cs : List PNode), goodTList cs = true →
    ∀ c ∈ cs, ∀ (level f : Nat), (reprN level c).length < f →
      parseBlock f (pstrip (reprN level c)) = some c
  | [], _, c, hc, _, _, _ => absurd hc (List.not_mem_nil c)
  | c1 :: cs, h, c, hc, level, f, hf => by
    rw [goodTList, Bool.and_eq_true] at h
    rcases List.mem_cons.1 hc with rfl | hmem
    · exact parse_reprN c h.1 level f hf
    · exact parse_reprN_list cs h.2 c hmem level f hf

end

/-- C6 (amended): serialization followed by parsing is the identity on
good trees: trees whose leaves (`TASK`/`EVENT`/`NULL`) carry a nonempty
label with no parentheses, no surrounding whitespace and no trailing
commas, and whose interior nodes (`SEQ`/`XOR`/`AND`/`LOOP`) carry no
label; `parse_pst_text (repr t) = some t` for every such tree. Outside
this class the round trip fails (claim_C6_counterexample): `None` labels
are read back as the literal string, `LOOPBACK` and interior labels are
dropped. -/
theorem claim_C6_amended (t : PNode) (h : goodT t = true) :
    parse_pst_text (reprN 0 t) = some t := by
  unfold parse_pst_text
  exact parse_reprN t h 0 ((reprN 0 t).length + 1) (Nat.lt_succ_self _)

theorem claim_C6_amended_witness :
    goodT (PNode.mk "SEQ" none [PNode.mk "EVENT" (some "Start") [],
      PNode.mk "XOR" none [PNode.mk "TASK" (some "B") [],
        PNode.mk "NULL" (some "None") []]]) = true ∧
    parse_pst_text (reprN 0 (PNode.mk "SEQ" none
      [PNode.mk "EVENT" (some "Start") [],
       PNode.mk "XOR" none [PNode.mk "TASK" (some "B") [],
         PNode.mk "NULL" (some "None") []]])) =
      some (PNode.mk "SEQ" none [PNode.mk "EVENT" (some "Start") [],
        PNode.mk "XOR" none [PNode.mk "TASK" (some "B") [],
          PNode.mk "NULL" (some "None") []]]) :=
  ⟨by decide, claim_C6_amended _ (by decide)⟩

end BPMN